import Mathlib

/-!
Verification of the Wplace AutoBot master server (Python sources under `src/server/`).

The Python code is shallowly embedded in Lean:
* Python dicts (which preserve insertion order and have unique keys) are modelled as
  association lists `List (K × V)` together with the operations `alGet` / `alSet` /
  `alErase` / `alUpdate` that read or rewrite the first occurrence of a key.
* Wall-clock timestamps (`datetime.utcnow().timestamp()`, a float) and the lock TTL are
  modelled as exact rationals; the current time is an explicit argument of every
  operation that reads the clock.
* Machine integers are `Int` / `Nat` (Python ints are unbounded, so no wrap-around).
* The float arithmetic in the `balanced` planner branch (`ideal = ch / total * target`,
  `int(ideal)`, fractional remainders) is modelled as exact real arithmetic:
  `int(ideal) = ch * target / total` in `Nat` floor division and the fractional
  remainder is represented by its numerator `ch * target % total` (all remainders
  share the denominator `total`, so comparisons agree).
* `while` loops are embedded as fuel-indexed recursions; the fuel passed at the call
  site is proved sufficient for the loop to reach the state in which the Python loop
  exits.
-/

/-! ## Association lists: the model of Python dicts -/

/-- `d.get(k)`: value of the first entry with key `k`. -/
def alGet {K V : Type} [DecidableEq K] : List (K × V) → K → Option V
  | [], _ => none
  | p :: rest, k => if p.1 = k then some p.2 else alGet rest k

/-- `d[k] = v`: replace the value at the first occurrence of `k`, else append. -/
def alSet {K V : Type} [DecidableEq K] : List (K × V) → K → V → List (K × V)
  | [], k, v => [(k, v)]
  | p :: rest, k, v => if p.1 = k then (k, v) :: rest else p :: alSet rest k v

/-- `del d[k]`: drop the first entry with key `k` (no-op when absent). -/
def alErase {K V : Type} [DecidableEq K] : List (K × V) → K → List (K × V)
  | [], _ => []
  | p :: rest, k => if p.1 = k then rest else p :: alErase rest k

/-- Mutate the value stored at key `k` in place (no-op when absent). -/
def alUpdate {K V : Type} [DecidableEq K] : List (K × V) → K → (V → V) → List (K × V)
  | [], _, _ => []
  | p :: rest, k, f => if p.1 = k then (p.1, f p.2) :: rest else p :: alUpdate rest k f

/-- The keys of an association list, in insertion order. -/
def alKeys {K V : Type} (l : List (K × V)) : List K := l.map Prod.fst

/-! ## Recent-repair lockout (`src/server/storage.py`, lines 73-146) -/

/-- A pixel coordinate: the `x` / `y` entries of a change dict, already converted
to `int` as `_mk_key` and `is_locked_change` do. -/
structure Coord where
  x : Int
  y : Int
deriving DecidableEq

/-- `_mk_key(x, y)`: the decimal key `"x,y"` (`storage.py`, line 82). -/
def _mk_key (x y : Int) : String :=
  toString x ++ "," ++ toString y

/-- `recently_repaired`: coordinate key to expiry epoch seconds. -/
abbrev LockState := List (String × ℚ)

/-- `mark_recent_repairs(coords)` (`storage.py`, lines 90-105), with the clock reading
`now` and the configured TTL `lockSecs` (`float(guard_config['recentLockSeconds'])`)
passed explicitly. -/
def mark_recent_repairs (coords : List Coord) (now lockSecs : ℚ) (st : LockState) :
    LockState :=
  if coords = [] then st
  else coords.foldl (fun acc p => alSet acc (_mk_key p.x p.y) (now + lockSecs)) st

/-- `is_locked_change(change)` (`storage.py`, lines 120-146) at clock reading `now`.
Returns the boolean result together with the state after the lazy expiry deletion.
Note the Python truthiness test `if not exp: return False`, which also fires when the
stored expiry equals `0.0`. -/
def is_locked_change (c : Coord) (now : ℚ) (st : LockState) : Bool × LockState :=
  match alGet st (_mk_key c.x c.y) with
  | none => (false, st)
  | some exp =>
    if exp = 0 then (false, st)
    else if exp ≤ now then (false, alErase st (_mk_key c.x c.y))
    else (true, st)

/-! ## Batch tracker (`src/server/storage.py`, lines 151-260) -/

/-- The fields of a `paintBatch` payload handed to `BatchTracker.assign`
(`session_orchestrator.py`, lines 346-353). -/
structure Payload where
  tileX : Int
  tileY : Int
  coords : List Coord
  colors : List Int
  requestId : String
  batchSize : Nat
deriving DecidableEq

/-- One tracked assignment: `{**payload, 'attempts': ..., 'status': ...,
'last_assigned_to': ...}` (`storage.py`, lines 179-184). -/
structure Assignment where
  payload : Payload
  attempts : Int
  status : String
  last_assigned_to : String
deriving DecidableEq

/-- `BatchTracker._key(slave_id, payload)` (`storage.py`, lines 164-170): the tile plus
the first coordinate, or `:empty`. -/
def batchKey (tileX tileY : Int) (coords : List Coord) : String :=
  match coords with
  | [] => toString tileX ++ "," ++ toString tileY ++ ":empty"
  | c :: _ =>
    toString tileX ++ "," ++ toString tileY ++ ":" ++ toString c.x ++ "," ++ toString c.y

/-- One request bucket: `{'assignments': {...}, 'pending': int}`. -/
structure BatchEntry where
  assignments : List ((String × String) × Assignment)
  pending : Nat
deriving DecidableEq

/-- `BatchTracker.batches`: request id to bucket. -/
abbrev TrackerState := List (String × BatchEntry)

/-- Number of assignments of a bucket whose status is `'pending'`
(the sum computed by `_recount`, `storage.py`, lines 228-232). -/
def pendingCount (e : BatchEntry) : Nat :=
  (e.assignments.filter fun a => decide (a.2.status = "pending")).length

/-- `BatchTracker._recount(request_id)` (`storage.py`, lines 228-232). -/
def tracker_recount (rid : String) (st : TrackerState) : TrackerState :=
  match alGet st rid with
  | none => st
  | some e => alSet st rid { e with pending := pendingCount e }

/-- `BatchTracker.create(request_id)` (`storage.py`, lines 159-162). -/
def tracker_create (rid : String) (st : TrackerState) : TrackerState :=
  alSet st rid { assignments := [], pending := 0 }

/-- `BatchTracker.assign(request_id, slave_id, payload, attempt)`
(`storage.py`, lines 172-185). -/
def tracker_assign (rid sid : String) (p : Payload) (attempt : Int)
    (st : TrackerState) : TrackerState :=
  let st1 := if (alGet st rid).isSome then st
             else alSet st rid { assignments := [], pending := 0 }
  match alGet st1 rid with
  | none => st1
  | some e =>
    let key := batchKey p.tileX p.tileY p.coords
    let a : Assignment :=
      { payload := p, attempts := attempt, status := "pending", last_assigned_to := sid }
    let e1 := { e with assignments := alSet e.assignments (sid, key) a }
    tracker_recount rid (alSet st1 rid e1)

/-- `BatchTracker.mark(request_id, slave_id, tileX, tileY, coords, ok)`
(`storage.py`, lines 187-200). -/
def tracker_mark (rid sid : String) (tileX tileY : Int) (coords : List Coord)
    (ok : Bool) (st : TrackerState) : TrackerState :=
  match alGet st rid with
  | none => st
  | some e =>
    let key := batchKey tileX tileY coords
    let e1 :=
      match alGet e.assignments (sid, key) with
      | none => e
      | some a =>
        let a1 := { a with status := if ok then "ok" else "failed" }
        { e with assignments := alSet e.assignments (sid, key) a1 }
    tracker_recount rid (alSet st rid e1)

/-- `BatchTracker.failed_assignments(request_id)` (`storage.py`, lines 202-207). -/
def tracker_failed (rid : String) (st : TrackerState) :
    List ((String × String) × Assignment) :=
  match alGet st rid with
  | none => []
  | some e => e.assignments.filter fun a => decide (a.2.status = "failed")

/-- `BatchTracker.inc_attempts(request_id, sid, key)` (`storage.py`, lines 209-220).
Returns the new attempt count and the new state.  Note: the status is reset to
`'pending'` but `_recount` is NOT called. -/
def tracker_inc (rid sid key : String) (st : TrackerState) : Int × TrackerState :=
  match alGet st rid with
  | none => (0, st)
  | some e =>
    match alGet e.assignments (sid, key) with
    | none => (0, st)
    | some a =>
      let a1 := { a with attempts := a.attempts + 1, status := "pending" }
      (a.attempts + 1,
        alSet st rid { e with assignments := alSet e.assignments (sid, key) a1 })

/-- `BatchTracker.get_pending(request_id)` (`storage.py`, lines 222-226). -/
def tracker_get_pending (rid : String) (st : TrackerState) : Nat :=
  match alGet st rid with
  | none => 0
  | some e => e.pending

/-- `BatchTracker.cleanup_abandoned_batches(request_id, max_retries)`
(`storage.py`, lines 234-260): delete assignments with `attempts > max_retries` and
`status == 'failed'`, recount, return how many were removed. -/
def tracker_cleanup (rid : String) (maxRetries : Int) (st : TrackerState) :
    Nat × TrackerState :=
  match alGet st rid with
  | none => (0, st)
  | some e =>
    let toRemove := e.assignments.filter fun a =>
      decide (maxRetries < a.2.attempts) && decide (a.2.status = "failed")
    let newAssignments := toRemove.foldl (fun acc a => alErase acc a.1) e.assignments
    let e1 := { e with assignments := newAssignments }
    (toRemove.length, tracker_recount rid (alSet st rid e1))

/-- The invariant claimed by the spec for the batch tracker: the stored `pending`
counter of every request equals the number of that request's assignments whose
status is `'pending'`. -/
def TrackerInv (st : TrackerState) : Prop :=
  ∀ rid e, alGet st rid = some e → e.pending = pendingCount e

/-- Actual number of pending assignments of a request (used to exhibit states on
which the stored counter is stale). -/
def tracker_actual_pending (rid : String) (st : TrackerState) : Nat :=
  match alGet st rid with
  | none => 0
  | some e => pendingCount e

/-! ## The retry loop of the orchestrator (`src/server/session_orchestrator.py`,
lines 361-399), specialised to the scenario of a single worker.

One retry tick takes the failed assignments, calls `inc_attempts` on each and,
when the new attempt count exceeds `maxRetries`, calls
`cleanup_abandoned_batches`; when it does not, the payload is resent (sending has
no effect on the tracker, and with a single valid slave the candidate list is the
same slave again, so the subsequent failed `paint_result` is a `mark` with the
same slave id and key). -/

/-- One pass of the inner `for (sid, key), data in fails` loop of
`orchestrate_loop` (lines 368-399), restricted to its effect on the tracker. -/
def retryTick (rid : String) (maxRetries : Int) (st : TrackerState) : TrackerState :=
  (tracker_failed rid st).foldl
    (fun acc f =>
      let r := tracker_inc rid f.1.1 f.1.2 acc
      if r.1 ≤ maxRetries then r.2
      else (tracker_cleanup rid maxRetries r.2).2)
    st

/-- One full failure round for the single-worker scenario: the worker reports
`ok=false` (`paint_result` ingress calls `BatchTracker.mark`), then the retry loop
body runs. -/
def failureRound (rid sid : String) (tileX tileY : Int) (coords : List Coord)
    (maxRetries : Int) (st : TrackerState) : TrackerState :=
  retryTick rid maxRetries (tracker_mark rid sid tileX tileY coords false st)

/-- The concrete scenario of claim C3: request `"r"`, a single batch assigned to
worker `"a"` with payload tile (0,0), coords `[(1,2)]`, color 3. -/
def c3Payload : Payload :=
  { tileX := 0, tileY := 0, coords := [⟨1, 2⟩], colors := [3], requestId := "r",
    batchSize := 1 }

/-- Tracker state after `create` and the initial `assign` of the C3 scenario. -/
def c3Start : TrackerState :=
  tracker_assign "r" "a" c3Payload 0 (tracker_create "r" [])

/-- Tracker state of the C3 scenario after `n` failure rounds with the default
`maxRetries = 3`. -/
def c3After (n : Nat) : TrackerState :=
  (failureRound "r" "a" 0 0 [⟨1, 2⟩] 3)^[n] c3Start

/-- A reachable tracker state with a stale `pending` counter: one assignment was
marked failed (recounted to 0 pending) and then `inc_attempts` reset its status to
`'pending'` without recounting. -/
def staleState : TrackerState :=
  (tracker_inc "r" "a" (batchKey 0 0 [⟨1, 2⟩])
    (tracker_mark "r" "a" 0 0 [⟨1, 2⟩] false c3Start)).2

/-! ## Connection registry (`src/server/connection_manager.py` and
`src/server/storage.py`, lines 287-331).

Only the favorite-election state is modelled: the registry is the insertion-ordered
map `connected_slaves` from slave id to its `is_favorite` flag.  WebSocket sends are
pure notifications and do not alter the registry. -/

/-- The modelled part of a `SlaveInfo` record. -/
structure SlaveRec where
  is_favorite : Bool
deriving DecidableEq

/-- The registry state: `connected_slaves` in insertion order. -/
abbrev RegState := List (String × SlaveRec)

/-- `ConnectionManager.connect_slave` (`connection_manager.py`, lines 48-132): a new
slave is appended and is favorite iff it is the first connected slave
(`is_first_slave = len(connected_slaves) == 0`); a reconnect leaves the flags
unchanged. -/
def connect_slave (sid : String) (st : RegState) : RegState :=
  if (alGet st sid).isSome then st
  else st ++ [(sid, ⟨st.isEmpty⟩)]

/-- `ConnectionManager.disconnect_slave` (`connection_manager.py`, lines 134-182):
remove the slave (`cleanup_disconnected_slave`, `storage.py`, lines 314-330); if it
was favorite and slaves remain, the first remaining slave becomes the unique
favorite. -/
def disconnect_slave (sid : String) (st : RegState) : RegState :=
  let wasFav := match alGet st sid with
    | some s => s.is_favorite
    | none => false
  let st1 := alErase st sid
  if wasFav = true ∧ st1 ≠ [] then
    match st1 with
    | [] => st1
    | (newId, _) :: _ => st1.map fun p => (p.1, ⟨decide (p.1 = newId)⟩)
  else st1

/-- `set_favorite_slave(slave_id)` (`storage.py`, lines 295-306): when the id is
connected, clear every favorite flag and then set the target's flag. -/
def set_favorite_slave (sid : String) (st : RegState) : Bool × RegState :=
  if (alGet st sid).isSome then
    let st1 := st.map fun p => (p.1, (⟨false⟩ : SlaveRec))
    (true, alUpdate st1 sid fun _ => ⟨true⟩)
  else (false, st)

/-- The registry operations of claim C9. -/
inductive RegOp
  | connect (sid : String)
  | disconnect (sid : String)
  | setFav (sid : String)

/-- Apply one registry operation. -/
def regStep (st : RegState) : RegOp → RegState
  | .connect sid => connect_slave sid st
  | .disconnect sid => disconnect_slave sid st
  | .setFav sid => (set_favorite_slave sid st).2

/-- The registry state reached from the empty registry by a sequence of operations. -/
def runRegOps (ops : List RegOp) : RegState := ops.foldl regStep []

/-- Number of connected workers with `is_favorite = true`. -/
def favCount (st : RegState) : Nat :=
  (st.filter fun p => p.2.is_favorite).length

/-- The strengthened induction invariant for the registry. -/
def RegGood (st : RegState) : Prop :=
  (alKeys st).Nodup ∧ favCount st ≤ 1 ∧ (st ≠ [] → favCount st = 1)

/-! ## Pixel patterns: `_line_up` (`src/server/pixel_patterns.py`, lines 49-60) -/

/-- A change as consumed by `_line_up`: integer-converted coordinates plus the rest
of the dict, kept abstract in `data` so that a permutation statement about whole
elements is meaningful. -/
structure Chg (α : Type) where
  x : Int
  y : Int
  data : α
deriving DecidableEq

/-- `_line_up(changes)`: group by `int(ch['y'])` in encounter order, then emit the
rows in ascending `y`, each row sorted (stably) by `int(ch['x'])`. -/
def _line_up {α : Type} (changes : List (Chg α)) : List (Chg α) :=
  let ys := ((changes.map (·.y)).dedup).mergeSort fun a b => decide (a ≤ b)
  ys.flatMap fun y =>
    (changes.filter fun c => decide (c.y = y)).mergeSort fun a b => decide (a.x ≤ b.x)

/-- The ordering claimed for `_line_up`: ascending `y`, and ascending `x` among
equal `y`. -/
def RowOrder {α : Type} (a b : Chg α) : Prop :=
  a.y < b.y ∨ (a.y = b.y ∧ a.x ≤ b.x)

/-! ## Distribution planner (`src/server/session_orchestrator.py`, lines 120-204)

`compute_distribution(strategy, charges, round_total)`.  The plan dict (whose keys
are exactly the keys of `valid`) is modelled as a total function `String → Nat`
that is `0` outside the keys of `valid`, updated with `Function.update`; the
returned `full_plan` reads this function back over the keys of `charges`. -/

/-- `valid = {sid: max(0, int(c)) for sid, c in charges.items() if c > 0}`
(line 128). -/
def validCharges (charges : List (String × Int)) : List (String × Nat) :=
  (charges.filter fun p => decide (0 < p.2)).map fun p => (p.1, p.2.toNat)

/-- Lookup of `valid[sid]` as a total function (0 outside the dict). -/
def chargeOf (valid : List (String × Nat)) (s : String) : Nat :=
  (alGet valid s).getD 0

/-- The greedy branch (lines 176-185): walk the workers in descending-credit order,
taking `min(ch, remaining)` from each until the target is exhausted. -/
def greedyAlloc : List (String × Nat) → Nat → (String → Nat) → (String → Nat)
  | [], _, plan => plan
  | (sid, ch) :: rest, remaining, plan =>
    if remaining = 0 then plan
    else greedyAlloc rest (remaining - min ch remaining)
      (Function.update plan sid (min ch remaining))

/-- The `round_robin` while-loop (lines 139-151), embedded with explicit fuel.
State: current plan, running index `idx`, number of units `assigned`.  One fuel
unit is one iteration of the Python loop; after a unit is granted or skipped the
loop breaks when the target is reached next time round or when every worker in
`order` is saturated (`all(plan[s] >= valid[s] for s in order)`). -/
def rrLoop (order : List String) (validF : String → Nat) :
    Nat → (String → Nat) → Nat → Nat → Nat → ((String → Nat) × Nat)
  | 0, plan, _, assigned, _ => (plan, assigned)
  | fuel + 1, plan, idx, assigned, target =>
    if assigned < target ∧ order ≠ [] then
      let sid := order.getD (idx % order.length) ""
      if plan sid < validF sid then
        let plan1 := Function.update plan sid (plan sid + 1)
        if assigned + 1 < target ∧ order.all (fun s => decide (validF s ≤ plan1 s)) then
          (plan1, assigned + 1)
        else rrLoop order validF fuel plan1 (idx + 1) (assigned + 1) target
      else
        if assigned < target ∧ order.all (fun s => decide (validF s ≤ plan s)) then
          (plan, assigned)
        else rrLoop order validF fuel plan (idx + 1) assigned target
    else (plan, assigned)

/-- Fuel that provably suffices for `rrLoop` to reach the Python loop's exit state. -/
def rrFuel (target : Nat) (order : List String) : Nat :=
  (target + 1) * (order.length + 1) + order.length + 1

/-- The floor pass of the `balanced` branch (lines 152-162): for each worker,
`ideal = (ch / total_ch) * target` in exact arithmetic, `base = int(ideal) =
ch * target / totalCh`, `plan[sid] = min(base, ch)`; accumulate `assigned` and
the fractional parts (represented by their numerator `ch * target % totalCh`,
all sharing the denominator `totalCh`). -/
def balancedStep (totalCh target : Nat)
    (acc : (String → Nat) × Nat × List (String × Nat)) (p : String × Nat) :
    (String → Nat) × Nat × List (String × Nat) :=
  let base := p.2 * target / totalCh
  let give := min base p.2
  (Function.update acc.1 p.1 give, acc.2.1 + give,
    acc.2.2 ++ [(p.1, p.2 * target % totalCh)])

def balancedBase (valid : List (String × Nat)) (totalCh target : Nat)
    (plan : String → Nat) : (String → Nat) × Nat × List (String × Nat) :=
  valid.foldl (balancedStep totalCh target) (plan, 0, [])

/-- The residual pass of the `balanced` branch (lines 163-171): walk the sorted
fractional list, granting one extra unit to each worker that still has headroom
until the target is reached. -/
def balancedFill (validF : String → Nat) :
    List (String × Nat) → (String → Nat) → Nat → Nat → ((String → Nat) × Nat)
  | [], plan, assigned, _ => (plan, assigned)
  | (sid, _) :: rest, plan, assigned, target =>
    if target ≤ assigned then (plan, assigned)
    else if plan sid < validF sid then
      balancedFill validF rest (Function.update plan sid (plan sid + 1)) (assigned + 1)
        target
    else balancedFill validF rest plan assigned target

/-- The defensive final clamp of the `balanced` branch (lines 172-175). -/
def clampPlan (order : List String) (validF : String → Nat) (plan : String → Nat) :
    String → Nat :=
  order.foldl
    (fun pl sid => if validF sid < pl sid then Function.update pl sid (validF sid) else pl)
    plan

/-- The final round-robin residual filler (lines 187-200), embedded with fuel like
`rrLoop`.  `expandable` is computed once before the loop. -/
def adjustFill (expandable : List String) (validF : String → Nat) :
    Nat → (String → Nat) → Nat → Nat → (String → Nat)
  | 0, plan, _, _ => plan
  | fuel + 1, plan, i, diff =>
    if 0 < diff ∧ expandable ≠ [] then
      let sid := expandable.getD (i % expandable.length) ""
      let hit := plan sid < validF sid
      let plan1 := if hit then Function.update plan sid (plan sid + 1) else plan
      let diff1 := if hit then diff - 1 else diff
      if expandable.all (fun s => decide (validF s ≤ plan1 s)) then plan1
      else adjustFill expandable validF fuel plan1 (i + 1) diff1
    else plan

/-- Remaining capacity of a plan over a key list (proof artefact). -/
def capSum (order : List String) (validF plan : String → Nat) : Nat :=
  (order.map fun s => validF s - plan s).sum

/-- Total of a plan over a key list (proof artefact). -/
def planSum (order : List String) (plan : String → Nat) : Nat :=
  (order.map plan).sum

/-- The strategy dispatch of `compute_distribution` (lines 139-185): the plan
built by the selected branch before the final residual adjustment. -/
def planStrategy (strat : String) (valid : List (String × Nat)) (target : Nat) :
    String → Nat :=
  let validF := chargeOf valid
  let order := alKeys valid
  let plan0 : String → Nat := fun _ => 0
  if strat = "round_robin" then
    (rrLoop order validF (rrFuel target order) plan0 0 0 target).1
  else if strat = "balanced" then
    let totalSum : Nat := (valid.map (·.2)).sum
    let totalCh := if totalSum = 0 then 1 else totalSum
    let fl := balancedBase valid totalCh target plan0
    let filled :=
      if fl.2.1 < target then
        balancedFill validF (fl.2.2.mergeSort fun a b => decide (b.2 ≤ a.2))
          fl.1 fl.2.1 target
      else (fl.1, fl.2.1)
    clampPlan order validF filled.1
  else
    greedyAlloc (valid.mergeSort fun a b => decide (b.2 ≤ a.2)) target plan0

/-- The final residual adjustment of `compute_distribution` (lines 187-200). -/
def planAdjust (valid : List (String × Nat)) (target : Nat) (plan1 : String → Nat) :
    String → Nat :=
  let validF := chargeOf valid
  let order := alKeys valid
  let sumPlan := (order.map plan1).sum
  if sumPlan < target then
    adjustFill (order.filter fun s => decide (plan1 s < validF s)) validF
      ((target - sumPlan + 1) * (order.length + 1) + order.length + 1)
      plan1 0 (target - sumPlan)
  else plan1

/-- `compute_distribution(strategy, charges, round_total)`
(`session_orchestrator.py`, lines 120-204). -/
def compute_distribution (strategy : String) (charges : List (String × Int))
    (roundTotal : Int) : List (String × Nat) :=
  let valid := validCharges charges
  if valid = [] ∨ roundTotal ≤ 0 then charges.map fun p => (p.1, 0)
  else
    let capTotal : Nat := (valid.map (·.2)).sum
    if min roundTotal (capTotal : Int) ≤ 0 then charges.map fun p => (p.1, 0)
    else
      let target : Nat := (min roundTotal (capTotal : Int)).toNat
      let strat := (if strategy = "" then "greedy" else strategy).toLower
      let plan2 := planAdjust valid target (planStrategy strat valid target)
      charges.map fun p => (p.1, plan2 p.1)

/-! ## One orchestrator iteration up to the planner call
(`src/server/session_orchestrator.py`, lines 249-278).

The iteration input is taken after the preview has been filtered: the filtered
change list, the per-slave charge map over the currently valid slaves, and the
already-read configuration values (`spendAllPixelsOnStart`,
`int(guard_config.get('pixelsPerBatch') or 10)`, `chargeStrategy`). -/

/-- Outcome of the decision chain in one loop iteration between the charge
computation and the planner call.  `plans` records that `compute_distribution`
was invoked (the subsequent selection / dispatch steps are not needed by the
claims). -/
inductive IterOutcome
  | sleepNoChanges
  | sleepNoCharges
  | sleepZeroDesired
  | waitForCharges
  | plans (plan : List (String × Nat))
deriving DecidableEq

/-- The decision chain of `orchestrate_loop` lines 249-273. -/
def orchestrateIteration {γ : Type} (spendAll : Bool) (pixelsPerBatch : Int)
    (strategy : String) (changes : List γ) (charges : List (String × Int)) :
    IterOutcome :=
  let totalRemaining : Int := (charges.map (·.2)).sum
  if changes.isEmpty then .sleepNoChanges
  else if totalRemaining ≤ 0 then .sleepNoCharges
  else
    let sumCharges : Int := (charges.map (·.2)).sum
    let desired : Int := if spendAll then sumCharges else min sumCharges pixelsPerBatch
    if desired ≤ 0 then .sleepZeroDesired
    else if spendAll = false ∧ sumCharges < pixelsPerBatch then .waitForCharges
    else .plans (compute_distribution strategy charges desired)

/-! ## JSON values and the compression envelope (`src/server/compression.py`)

JSON is modelled without floats (`JVal`).  The external libraries (`json`, `gzip`,
`base64`, UTF-8 transcoding) are abstracted as the fields of a `WireCodec`; the
claims' theorems assume only the library round-trip contracts
(`loads(dumps(v)) == v`, `decompress(compress(b)) == b`, `b64decode(b64encode(b))
== b`, `s.encode('utf-8').decode('utf-8') == s`).  The Python `try/except` around
decoding malformed payloads is not reachable under these contracts and is not
modelled. -/

/-- JSON values (numbers restricted to integers). -/
inductive JVal
  | null
  | bool (b : Bool)
  | int (n : Int)
  | str (s : String)
  | arr (elems : List JVal)
  | obj (fields : List (String × JVal))

/-- `message.get(k)` on a JSON value: object field lookup, `None` otherwise. -/
def jGet (m : JVal) (k : String) : Option JVal :=
  match m with
  | .obj fields => alGet fields k
  | _ => none

/-- `isinstance(message, dict)`. -/
def jIsObj (m : JVal) : Bool :=
  match m with
  | .obj _ => true
  | _ => false

/-- Python equality of an optional JSON value against a string literal
(`message.get('type') == '...'`): true exactly when the value is that string. -/
def jStrEq (o : Option JVal) (s : String) : Bool :=
  match o with
  | some (.str t) => decide (t = s)
  | _ => false

/-- The abstract wire libraries used by `compression.py`, over a byte type `B`:
`dumps0` is `json.dumps(m)` (default separators), `dumpsC` is
`json.dumps(m, separators=(',', ':'), ensure_ascii=False)`, `loads` is
`json.loads`, `utf8enc`/`utf8dec` are `str.encode('utf-8')` / `bytes.decode`,
`blen` is `len` on bytes, `gz`/`gunz` are `gzip.compress` / `gzip.decompress` and
`b64e`/`b64d` are `base64.b64encode(...).decode('ascii')` / `base64.b64decode`. -/
structure WireCodec (B : Type) where
  dumps0 : JVal → String
  dumpsC : JVal → String
  loads : String → JVal
  utf8enc : String → B
  utf8dec : B → String
  blen : B → Nat
  gz : B → B
  gunz : B → B
  b64e : B → String
  b64d : String → B

/-- `COMPRESSION_THRESHOLD = 5 * 1024 * 1024` (`compression.py`, line 23). -/
def COMPRESSION_THRESHOLD : Nat := 5 * 1024 * 1024

/-- `_compress_if_needed(message)` (`compression.py`, lines 32-83). -/
def _compress_if_needed {B : Type} (w : WireCodec B) (message : JVal) : String :=
  if !jIsObj message || jStrEq (jGet message "type") "__compressed__" then
    w.dumps0 message
  else if jStrEq (jGet message "type") "paintBatch" ||
      jStrEq (jGet message "type") "repairOrder" then
    w.dumpsC message
  else
    let raw : B := w.utf8enc (w.dumpsC message)
    if w.blen raw < COMPRESSION_THRESHOLD then w.utf8dec raw
    else
      let b64 : String := w.b64e (w.gz raw)
      let wrapper : JVal := .obj
        [("type", .str "__compressed__"),
         ("encoding", .str "gzip+base64"),
         ("originalType", (jGet message "type").getD .null),
         ("originalLength", .int (w.blen raw)),
         ("compressedLength", .int b64.length),
         ("payload", .str b64)]
      w.dumpsC wrapper

/-- `_try_decompress(message)` (`compression.py`, lines 156-184). -/
def _try_decompress {B : Type} (w : WireCodec B) (message : JVal) : JVal :=
  if !jIsObj message then message
  else if !jStrEq (jGet message "type") "__compressed__" ||
      !jStrEq (jGet message "encoding") "gzip+base64" then
    message
  else
    match jGet message "payload" with
    | some (.str b64) => w.loads (w.utf8dec (w.gunz (w.b64d b64)))
    | _ => message

/-- The receive path applied to a wire string: `json.loads` followed by
`_try_decompress`. -/
def wireDecode {B : Type} (w : WireCodec B) (s : String) : JVal :=
  _try_decompress w (w.loads s)

/-! ### A concrete executable codec

To exhibit counterexamples (and witnesses) the abstract libraries are instantiated
with a small verified serialiser: values are encoded over the alphabet
`n t f i s a o p m x e` with unary naturals, and parsed back with a fuel-indexed
parser.  Compression and base64 are instantiated with the identity (both are
bijections on byte strings, and only the round-trip contract matters). -/

/-- Unary encoding of a natural: `n` times `'x'`, then `'e'`. -/
def natUn (n : Nat) : List Char := List.replicate n 'x' ++ ['e']

/-- Encoding of an integer: sign marker then unary magnitude. -/
def encInt (n : Int) : List Char :=
  if 0 ≤ n then 'p' :: natUn n.toNat else 'm' :: natUn (-n).toNat

/-- Encoding of a string: length, then each character code in unary. -/
def encStr (s : String) : List Char :=
  natUn s.data.length ++ s.data.flatMap fun c => natUn c.toNat

mutual

/-- Serialiser for JSON values. -/
def jencV : JVal → List Char
  | .null => ['n']
  | .bool true => ['t']
  | .bool false => ['f']
  | .int n => 'i' :: encInt n
  | .str s => 's' :: encStr s
  | .arr l => 'a' :: (natUn l.length ++ jencL l)
  | .obj l => 'o' :: (natUn l.length ++ jencF l)

/-- Serialiser for arrays. -/
def jencL : List JVal → List Char
  | [] => []
  | v :: vs => jencV v ++ jencL vs

/-- Serialiser for object field lists. -/
def jencF : List (String × JVal) → List Char
  | [] => []
  | (k, v) :: fs => encStr k ++ jencV v ++ jencF fs

end

/-- Parser for unary naturals. -/
def parseNatUn : List Char → Option (Nat × List Char)
  | [] => none
  | c :: r =>
    if c = 'e' then some (0, r)
    else if c = 'x' then (parseNatUn r).map fun p => (p.1 + 1, p.2)
    else none

/-- Parser for a counted block of characters. -/
def parseChars : Nat → List Char → Option (List Char × List Char)
  | 0, r => some ([], r)
  | n + 1, r =>
    (parseNatUn r).bind fun p =>
      (parseChars n p.2).bind fun q => some (Char.ofNat p.1 :: q.1, q.2)

/-- Parser for strings. -/
def parseStr (r : List Char) : Option (String × List Char) :=
  (parseNatUn r).bind fun p =>
    (parseChars p.1 p.2).bind fun q => some (String.mk q.1, q.2)

mutual

/-- Fuel-indexed parser for JSON values. -/
def jdecV : Nat → List Char → Option (JVal × List Char)
  | 0, _ => none
  | fuel + 1, cs =>
    match cs with
    | [] => none
    | c :: r =>
      if c = 'n' then some (.null, r)
      else if c = 't' then some (.bool true, r)
      else if c = 'f' then some (.bool false, r)
      else if c = 'i' then
        match r with
        | [] => none
        | sgn :: r1 =>
          if sgn = 'p' then (parseNatUn r1).map fun p => (.int (p.1 : Int), p.2)
          else if sgn = 'm' then (parseNatUn r1).map fun p => (.int (-(p.1 : Int)), p.2)
          else none
      else if c = 's' then (parseStr r).map fun p => (.str p.1, p.2)
      else if c = 'a' then
        (parseNatUn r).bind fun p =>
          (jdecL fuel p.1 p.2).bind fun q => some (.arr q.1, q.2)
      else if c = 'o' then
        (parseNatUn r).bind fun p =>
          (jdecF fuel p.1 p.2).bind fun q => some (.obj q.1, q.2)
      else none

/-- Fuel-indexed parser for a counted sequence of values. -/
def jdecL : Nat → Nat → List Char → Option (List JVal × List Char)
  | _, 0, cs => some ([], cs)
  | 0, _ + 1, _ => none
  | fuel + 1, n + 1, cs =>
    (jdecV fuel cs).bind fun p =>
      (jdecL fuel n p.2).bind fun q => some (p.1 :: q.1, q.2)

/-- Fuel-indexed parser for a counted sequence of object fields. -/
def jdecF : Nat → Nat → List Char → Option (List (String × JVal) × List Char)
  | _, 0, cs => some ([], cs)
  | 0, _ + 1, _ => none
  | fuel + 1, n + 1, cs =>
    (parseStr cs).bind fun pk =>
      (jdecV fuel pk.2).bind fun pv =>
        (jdecF fuel n pv.2).bind fun q => some ((pk.1, pv.1) :: q.1, q.2)

end

mutual

/-- Nesting depth of a JSON value: the fuel needed by the parser. -/
def jdepthV : JVal → Nat
  | .null => 1
  | .bool _ => 1
  | .int _ => 1
  | .str _ => 1
  | .arr l => jdepthL l + 1
  | .obj l => jdepthF l + 1

def jdepthL : List JVal → Nat
  | [] => 0
  | v :: vs => max (jdepthV v) (jdepthL vs) + 1

def jdepthF : List (String × JVal) → Nat
  | [] => 0
  | (_, v) :: fs => max (jdepthV v) (jdepthF fs) + 1

end

/-- The concrete serialiser (`json.dumps` stand-in). -/
def jdump (v : JVal) : String := String.mk (jencV v)

/-- The concrete parser (`json.loads` stand-in). -/
def jload (s : String) : JVal :=
  match jdecV s.data.length s.data with
  | some (v, _) => v
  | none => .null

/-- The concrete codec instance: bytes are strings, gzip and base64 are the
identity, and both dump variants are the verified serialiser. -/
def plainCodec : WireCodec String :=
  { dumps0 := jdump, dumpsC := jdump, loads := jload,
    utf8enc := id, utf8dec := id, blen := String.length,
    gz := id, gunz := id, b64e := id, b64d := id }

/-- The wrapper-shaped message on which the round-trip claim fails: it carries a
valid compression payload (the encoding of `null`) without having been produced
by `_compress_if_needed`. -/
def cexMessage : JVal :=
  .obj [("type", .str "__compressed__"),
        ("encoding", .str "gzip+base64"),
        ("payload", .str (jdump .null))]

/-! ## Pattern selector with an explicit store
(`src/server/pixel_patterns.py`)

To make the "inputs are never mutated" claim expressible, the change dicts live in
an explicit store (`Store`), and the change lists passed around are lists of
references (indices) into it.  `select_pixels_by_pattern` returns the selected
references together with the possibly grown store; mutation of an input dict would
show up as a changed cell at an index below the original store length.

Modelling notes, marked where they apply:
* `int(...)` reads of `x` / `y` default to `0` (a malformed entry raises in Python
  and is rescued by the `except` fallback; not modelled).
* orderings computed from float expressions are handled in two ways: where the
  float key is a strictly monotone image of an integer quantity (Euclidean
  distances, half-integer bbox centres) the integer key is used (same order, same
  ties); the remaining float/trigonometric/random keys (`spiral*`, `wave`,
  `priority`, `biasedRandom`, `anchorPoints`) are abstracted into a comparator
  parameter `fcmp` - those strategies are plain stable sorts of the pool and never
  write the store.
* `random.*` draws are an abstract stream `rng : Nat → Nat`. -/

/-- A change dict. -/
abbrev Dict := List (String × JVal)

/-- The heap of dicts. -/
abbrev Store := List Dict

/-- A reference to a dict. -/
abbrev Ref := Nat

/-- Dereference (reads beyond the store give the empty dict). -/
def readRef (store : Store) (r : Ref) : Dict := store.getD r []

/-- `'k' in d`. -/
def dHasKey (d : Dict) (k : String) : Bool := (alGet d k).isSome

/-- `int(d[k])` for integer-valued entries, defaulting to 0. -/
def dGetInt (d : Dict) (k : String) : Int :=
  match alGet d k with
  | some (.int n) => n
  | _ => 0

/-- `int(ch['x'])`. -/
def refX (store : Store) (r : Ref) : Int := dGetInt (readRef store r) "x"

/-- `int(ch['y'])`. -/
def refY (store : Store) (r : Ref) : Int := dGetInt (readRef store r) "y"

/-- Bounding box of a pool (`_bbox`, lines 20-46); `(0,0,0,0)` for the empty pool
(the callers guard against it). -/
structure BBox where
  minX : Int
  maxX : Int
  minY : Int
  maxY : Int

/-- `_bbox(changes)`. -/
def _bbox (store : Store) (pool : List Ref) : BBox :=
  match pool with
  | [] => ⟨0, 0, 0, 0⟩
  | r :: rest =>
    rest.foldl
      (fun b r2 =>
        ⟨min b.minX (refX store r2), max b.maxX (refX store r2),
         min b.minY (refY store r2), max b.maxY (refY store r2)⟩)
      ⟨refX store r, refX store r, refY store r, refY store r⟩

/-- `defaultdict(list)` append: `rows[k].append(r)`. -/
def alAppendList {K : Type} [DecidableEq K] :
    List (K × List Ref) → K → Ref → List (K × List Ref)
  | [], k, r => [(k, [r])]
  | p :: rest, k, r =>
    if p.1 = k then (p.1, p.2 ++ [r]) :: rest else p :: alAppendList rest k r

/-- Row grouping `rows[key(ch)].append(ch)` in pool order. -/
def groupRefs (key : Ref → Int) (pool : List Ref) : List (Int × List Ref) :=
  pool.foldl (fun rows r => alAppendList rows (key r) r) []

/-- `_line_up` on the store model (lines 49-60). -/
def pat_line_up (store : Store) (pool : List Ref) : List Ref :=
  let rows := groupRefs (refY store) pool
  (((rows.map (·.1)).mergeSort fun a b => decide (a ≤ b)).flatMap fun y =>
    ((alGet rows y).getD []).mergeSort fun a b => decide (refX store a ≤ refX store b))

/-- `_line_down` (lines 63-74). -/
def pat_line_down (store : Store) (pool : List Ref) : List Ref :=
  let rows := groupRefs (refY store) pool
  (((rows.map (·.1)).mergeSort fun a b => decide (b ≤ a)).flatMap fun y =>
    ((alGet rows y).getD []).mergeSort fun a b => decide (refX store a ≤ refX store b))

/-- `_line_left` (lines 77-88). -/
def pat_line_left (store : Store) (pool : List Ref) : List Ref :=
  let cols := groupRefs (refX store) pool
  (((cols.map (·.1)).mergeSort fun a b => decide (a ≤ b)).flatMap fun x =>
    ((alGet cols x).getD []).mergeSort fun a b => decide (refY store a ≤ refY store b))

/-- `_line_right` (lines 91-102). -/
def pat_line_right (store : Store) (pool : List Ref) : List Ref :=
  let cols := groupRefs (refX store) pool
  (((cols.map (·.1)).mergeSort fun a b => decide (b ≤ a)).flatMap fun x =>
    ((alGet cols x).getD []).mergeSort fun a b => decide (refY store a ≤ refY store b))

/-- Scaled squared distance to the bbox centre: `4 * hypot(x-cx, y-cy)^2` with
`cx = (minX+maxX)/2`, `cy = (minY+maxY)/2`; a strictly monotone image of the
source's float key. -/
def centerKey (store : Store) (b : BBox) (r : Ref) : Int :=
  (2 * refX store r - (b.minX + b.maxX)) ^ 2 + (2 * refY store r - (b.minY + b.maxY)) ^ 2

/-- `_center` (lines 105-111). -/
def pat_center (store : Store) (pool : List Ref) : List Ref :=
  let b := _bbox store pool
  pool.mergeSort fun x y => decide (centerKey store b x ≤ centerKey store b y)

/-- `ring(c)` of `_borders` (lines 118-121). -/
def ringKey (store : Store) (b : BBox) (r : Ref) : Int :=
  min (min (refX store r - b.minX) (b.maxX - refX store r))
    (min (refY store r - b.minY) (b.maxY - refY store r))

/-- `_borders` (lines 114-123). -/
def pat_borders (store : Store) (pool : List Ref) : List Ref :=
  let b := _bbox store pool
  pool.mergeSort fun x y => decide (ringKey store b x ≤ ringKey store b y)

/-- Squared distance between two referenced changes. -/
def sqDist (store : Store) (a b : Ref) : Int :=
  (refX store a - refX store b) ^ 2 + (refY store a - refY store b) ^ 2

/-- Squared distance to the nearest bbox corner (`_corners`, lines 236-239);
monotone image of the float key. -/
def cornersKey (store : Store) (b : BBox) (r : Ref) : Int :=
  min
    (min ((refX store r - b.minX) ^ 2 + (refY store r - b.minY) ^ 2)
         ((refX store r - b.maxX) ^ 2 + (refY store r - b.minY) ^ 2))
    (min ((refX store r - b.minX) ^ 2 + (refY store r - b.maxY) ^ 2)
         ((refX store r - b.maxX) ^ 2 + (refY store r - b.maxY) ^ 2))

/-- `_corners` (lines 231-241). -/
def pat_corners (store : Store) (pool : List Ref) : List Ref :=
  let b := _bbox store pool
  pool.mergeSort fun x y => decide (cornersKey store b x ≤ cornersKey store b y)

/-- `_cluster` (lines 201-210): random seed, then sort by distance to it. -/
def pat_cluster (rng : Nat → Nat) (store : Store) (pool : List Ref) : List Ref :=
  match pool with
  | [] => []
  | _ =>
    let seed := pool.getD (rng 0 % pool.length) 0
    pool.mergeSort fun x y => decide (sqDist store x seed ≤ sqDist store y seed)

/-- `_diagonal` (lines 145-147): sort by `(x + y, x)`. -/
def pat_diagonal (store : Store) (pool : List Ref) : List Ref :=
  pool.mergeSort fun a b =>
    decide (refX store a + refY store a < refX store b + refY store b) ||
      (decide (refX store a + refY store a = refX store b + refY store b) &&
        decide (refX store a ≤ refX store b))

/-- `_diagonal_sweep` (lines 155-167). -/
def pat_diagonal_sweep (store : Store) (pool : List Ref) : List Ref :=
  let groups := groupRefs (fun r => refX store r + refY store r) pool
  (((groups.map (·.1)).mergeSort fun a b => decide (a ≤ b)).flatMap fun s =>
    ((alGet groups s).getD []).mergeSort fun a b => decide (refX store a ≤ refX store b))

/-- `_sweep` (lines 244-255): bucket by `(x // 8, y // 8)` in encounter order,
visit buckets sorted by `(bucketY, bucketX)`. -/
def pat_sweep (store : Store) (pool : List Ref) : List Ref :=
  let sections := pool.foldl
    (fun (secs : List ((Int × Int) × List Ref)) r =>
      let k := ((refX store r).fdiv 8, (refY store r).fdiv 8)
      alAppendList secs k r)
    []
  ((sections.map (·.1)).mergeSort fun a b =>
      decide (a.2 < b.2) || (decide (a.2 = b.2) && decide (a.1 ≤ b.1))).flatMap
    fun k => (alGet sections k).getD []

/-- First-minimum selection (`min(remaining, key=...)`). -/
def argminKey (key : Ref → Int) : List Ref → Option Ref
  | [] => none
  | r :: rest => some (rest.foldl (fun best x => if key x < key best then x else best) r)

/-- The nearest-neighbour walk of `_proximity` (lines 288-293). -/
def proximityWalk (store : Store) : Nat → Ref → List Ref → List Ref
  | 0, _, _ => []
  | fuel + 1, last, remaining =>
    match argminKey (fun r => sqDist store r last) remaining with
    | none => []
    | some nxt => nxt :: proximityWalk store fuel nxt (remaining.erase nxt)

/-- `_proximity` (lines 275-294). -/
def pat_proximity (rng : Nat → Nat) (store : Store) (pool : List Ref) : List Ref :=
  match pool with
  | [] => []
  | _ =>
    let start := pool.getD (rng 0 % pool.length) 0
    start :: proximityWalk store pool.length start (pool.erase start)

/-- `min_dist_to_out` of `_scattered` (lines 344-345); `out` is never empty. -/
def minDistToOut (store : Store) (out : List Ref) (c : Ref) : Int :=
  match out with
  | [] => 0
  | o :: rest => rest.foldl (fun m o2 => min m (sqDist store c o2)) (sqDist store c o)

/-- First index of the maximum (`max(range(len(cand)), key=...)`). -/
def argmaxList (l : List Int) : Nat :=
  (List.range l.length).foldl (fun b i => if l.getD b 0 < l.getD i 0 then i else b) 0

/-- The farthest-point loop of `_scattered` (lines 347-349). -/
def scatterLoop (store : Store) : Nat → List Ref → List Ref → List Ref
  | 0, _, _ => []
  | fuel + 1, out, cand =>
    match cand with
    | [] => []
    | _ =>
      let keys := cand.map fun c => minDistToOut store out c
      let bestIdx := argmaxList keys
      let best := cand.getD bestIdx 0
      best :: scatterLoop store fuel (out ++ [best]) (cand.eraseIdx bestIdx)

/-- `_scattered` (lines 333-351). -/
def pat_scattered (rng : Nat → Nat) (store : Store) (pool : List Ref) : List Ref :=
  match pool with
  | [] => []
  | _ =>
    let i0 := rng 0 % pool.length
    let first := pool.getD i0 0
    first :: scatterLoop store pool.length [first] (pool.eraseIdx i0)

/-- The quadrant interleaving loop of `_quadrant` (lines 317-330): one element of
each non-exhausted quadrant per round. -/
def interleave4 : Nat → List Ref → List Ref → List Ref → List Ref → List Ref
  | 0, _, _, _, _ => []
  | fuel + 1, a, b, c, d =>
    if a.isEmpty && b.isEmpty && c.isEmpty && d.isEmpty then []
    else
      (a.take 1 ++ b.take 1 ++ c.take 1 ++ d.take 1) ++
        interleave4 fuel (a.drop 1) (b.drop 1) (c.drop 1) (d.drop 1)

/-- `_quadrant` (lines 297-330); the comparisons against the half-integer centre
`x <= cx` are the exact integer comparisons `2x <= minX + maxX`. -/
def pat_quadrant (store : Store) (pool : List Ref) : List Ref :=
  let b := _bbox store pool
  let sx := b.minX + b.maxX
  let sy := b.minY + b.maxY
  let q0 := pool.filter fun r =>
    decide (2 * refX store r ≤ sx) && decide (2 * refY store r ≤ sy)
  let q1 := pool.filter fun r =>
    decide (sx < 2 * refX store r) && decide (2 * refY store r ≤ sy)
  let q2 := pool.filter fun r =>
    decide (2 * refX store r ≤ sx) && decide (sy < 2 * refY store r)
  let q3 := pool.filter fun r =>
    decide (sx < 2 * refX store r) && decide (sy < 2 * refY store r)
  interleave4 (q0.length + q1.length + q2.length + q3.length + 1) q0 q1 q2 q3

/-- `_zigzag` (lines 126-142): each change is copied into a fresh dict annotated
with `'_x'`; the copies are grouped by `y`, each row sorted by `'_x'` with the
direction alternating by row parity; finally `'_x'` is popped from the copies.
All writes touch only the freshly allocated cells. -/
def pat_zigzag (store : Store) (pool : List Ref) : List Ref × Store :=
  let alloc := pool.foldl
    (fun (acc : List (Int × List Ref) × Store) r =>
      let d := readRef store r
      let nd := alSet d "_x" (.int (dGetInt d "x"))
      (alAppendList acc.1 (dGetInt d "y") acc.2.length, acc.2 ++ [nd]))
    ([], store)
  let rows := alloc.1
  let store1 := alloc.2
  let ys := (rows.map (·.1)).mergeSort fun a b => decide (a ≤ b)
  let out := (List.range ys.length).flatMap fun i =>
    let row := (alGet rows (ys.getD i 0)).getD []
    if i % 2 = 1 then
      row.mergeSort fun a b =>
        decide (dGetInt (readRef store1 b) "_x" ≤ dGetInt (readRef store1 a) "_x")
    else
      row.mergeSort fun a b =>
        decide (dGetInt (readRef store1 a) "_x" ≤ dGetInt (readRef store1 b) "_x")
  let store2 := out.foldl (fun st r => st.set r (alErase (readRef st r) "_x")) store1
  (out, store2)

/-- `random.shuffle` model: draw positions from the abstract stream. -/
def shuffleModel (rng : Nat → Nat) : Nat → List Ref → List Ref
  | 0, l => l
  | fuel + 1, l =>
    match l with
    | [] => []
    | _ =>
      let i := rng (fuel + 1) % l.length
      l.getD i 0 :: shuffleModel rng fuel (l.eraseIdx i)

/-- The pattern dispatch of `select_pixels_by_pattern` (lines 426-479): the
branch selected by the (defaulted) pattern name. -/
def patternDispatch (fcmp : String → Store → List Ref → Ref → Ref → Bool)
    (rng : Nat → Nat) (p : String) (store : Store) (pool : List Ref) :
    List Ref × Store :=
  if p = "lineUp" then (pat_line_up store pool, store)
  else if p = "lineDown" then (pat_line_down store pool, store)
  else if p = "lineLeft" then (pat_line_left store pool, store)
  else if p = "lineRight" then (pat_line_right store pool, store)
  else if p = "center" then (pat_center store pool, store)
  else if p = "borders" then (pat_borders store pool, store)
  else if p = "spiral" then (pool.mergeSort (fcmp "spiral" store pool), store)
  else if p = "spiralClockwise" then
    (pool.mergeSort (fcmp "spiralClockwise" store pool), store)
  else if p = "spiralCounterClockwise" then
    (pool.mergeSort (fcmp "spiralCounterClockwise" store pool), store)
  else if p = "zigzag" then pat_zigzag store pool
  else if p = "diagonal" then (pat_diagonal store pool, store)
  else if p = "cluster" then (pat_cluster rng store pool, store)
  else if p = "wave" then (pool.mergeSort (fcmp "wave" store pool), store)
  else if p = "corners" then (pat_corners store pool, store)
  else if p = "sweep" then (pat_sweep store pool, store)
  else if p = "priority" then (pool.mergeSort (fcmp "priority" store pool), store)
  else if p = "proximity" then (pat_proximity rng store pool, store)
  else if p = "quadrant" then (pat_quadrant store pool, store)
  else if p = "scattered" then (pat_scattered rng store pool, store)
  else if p = "snake" then pat_zigzag store pool
  else if p = "diagonalSweep" then (pat_diagonal_sweep store pool, store)
  else if p = "biasedRandom" then
    (pool.mergeSort (fcmp "biasedRandom" store pool), store)
  else if p = "anchorPoints" then
    (pool.mergeSort (fcmp "anchorPoints" store pool), store)
  else (shuffleModel rng pool.length pool, store)

/-- `select_pixels_by_pattern(pattern, changes, count)` (lines 410-483).
`fcmp` abstracts the float-keyed comparators (see the section comment); `rng` is
the random stream.  Returns the selection and the store after the call. -/
def select_pixels_by_pattern (fcmp : String → Store → List Ref → Ref → Ref → Bool)
    (rng : Nat → Nat) (pattern : String) (changes : List Ref) (count : Int)
    (store : Store) : List Ref × Store :=
  let pool := changes.filter fun r =>
    dHasKey (readRef store r) "x" && dHasKey (readRef store r) "y"
  if pool.isEmpty || decide (count ≤ 0) then ([], store)
  else
    let p := if pattern = "" then "random" else pattern
    let os := patternDispatch fcmp rng p store pool
    (os.1.take count.toNat, os.2)

/-! # Theorems -/

/-! ## Association-list lemmas -/

theorem alGet_alSet {K V : Type} [DecidableEq K] (l : List (K × V)) (k k' : K) (v : V) :
    alGet (alSet l k v) k' = if k' = k then some v else alGet l k' := by
  induction l with
  | nil =>
    simp only [alSet, alGet]
    by_cases h : k = k'
    · rw [if_pos h, if_pos h.symm]
    · rw [if_neg h, if_neg (mt Eq.symm h)]
  | cons p rest ih =>
    by_cases hp : p.1 = k <;> by_cases hk : k' = k
    · subst hk; subst hp; simp [alSet, alGet]
    · subst hp; simp [alSet, alGet, hk, mt Eq.symm hk]
    · subst hk; simp [alSet, alGet, hp, ih]
    · simp [alSet, alGet, hp, hk, ih]

theorem alSet_get_same {K V : Type} [DecidableEq K] (l : List (K × V)) (k : K) (v : V)
    (h : alGet l k = some v) : alSet l k v = l := by
  induction l with
  | nil => simp [alGet] at h
  | cons p rest ih =>
    by_cases hp : p.1 = k
    · simp only [alGet] at h
      rw [if_pos hp] at h
      injection h with hv
      simp only [alSet]
      rw [if_pos hp, ← hp, ← hv]
    · simp only [alGet] at h
      rw [if_neg hp] at h
      simp only [alSet]
      rw [if_neg hp, ih h]

theorem alErase_get_none {K V : Type} [DecidableEq K] (l : List (K × V)) (k : K)
    (h : alGet l k = none) : alErase l k = l := by
  induction l with
  | nil => simp [alErase]
  | cons p rest ih =>
    by_cases hp : p.1 = k
    · simp only [alGet] at h
      rw [if_pos hp] at h
      cases h
    · simp only [alGet] at h
      rw [if_neg hp] at h
      simp only [alErase]
      rw [if_neg hp, ih h]

/-! ## Claim C4: recent-repair lockout -/

theorem lock_fold_preserves (coords : List Coord) (st : LockState) (k : String) (v : ℚ)
    (h : alGet st k = some v) :
    alGet (coords.foldl (fun acc p => alSet acc (_mk_key p.x p.y) v) st) k = some v := by
  induction coords generalizing st with
  | nil => exact h
  | cons p rest ih =>
    refine ih (alSet st (_mk_key p.x p.y) v) ?_
    rw [alGet_alSet]
    by_cases hk : k = _mk_key p.x p.y
    · simp [hk]
    · simp [hk, h]

theorem lock_fold_mem (coords : List Coord) (st : LockState) (c : Coord) (v : ℚ)
    (h : c ∈ coords) :
    alGet (coords.foldl (fun acc p => alSet acc (_mk_key p.x p.y) v) st)
      (_mk_key c.x c.y) = some v := by
  induction coords generalizing st with
  | nil => cases h
  | cons p rest ih =>
    rcases List.mem_cons.mp h with h1 | h1
    · subst h1
      by_cases hr : c ∈ rest
      · exact ih _ hr
      · refine lock_fold_preserves rest _ _ v ?_
        rw [alGet_alSet]
        simp
    · exact ih _ h1

theorem mark_lookup (coords : List Coord) (st : LockState) (c : Coord) (now lockSecs : ℚ)
    (h : c ∈ coords) :
    alGet (mark_recent_repairs coords now lockSecs st) (_mk_key c.x c.y) =
      some (now + lockSecs) := by
  have hne : coords ≠ [] := by rintro rfl; cases h
  unfold mark_recent_repairs
  rw [if_neg hne]
  exact lock_fold_mem coords st c (now + lockSecs) h

/-- Claim C4 (amended): after `mark_recent_repairs(coords)` at time `t0` with TTL
`recentLockSeconds = L`, provided the stored expiry `t0 + L` is nonzero (Python
treats a stored `0.0` expiry as absent), `is_locked_change(c)` returns `true` at
every time `t < t0 + L` for each `c ∈ coords`, and at every time `t > t0 + L` it
returns `false` and removes the expired entry from the map. -/
theorem C4_lockout_ttl (st : LockState) (coords : List Coord) (c : Coord)
    (t0 L t : ℚ) (hc : c ∈ coords) (hnz : t0 + L ≠ 0) :
    (t < t0 + L →
      (is_locked_change c t (mark_recent_repairs coords t0 L st)).1 = true) ∧
    (t0 + L < t →
      (is_locked_change c t (mark_recent_repairs coords t0 L st)).1 = false ∧
      (is_locked_change c t (mark_recent_repairs coords t0 L st)).2 =
        alErase (mark_recent_repairs coords t0 L st) (_mk_key c.x c.y)) := by
  have hget := mark_lookup coords st c t0 L hc
  constructor
  · intro hlt
    unfold is_locked_change
    rw [hget]
    simp only [hnz, if_false]
    rw [if_neg (not_le.mpr hlt)]
  · intro hgt
    unfold is_locked_change
    rw [hget]
    simp only [hnz, if_false]
    rw [if_pos (le_of_lt hgt)]
    exact ⟨rfl, rfl⟩

/-- Witness for C4: a concrete mark at `t0 = 10` with TTL `60`; locked at `t = 20`,
unlocked at `t = 100`. -/
theorem C4_lockout_ttl_witness :
    (is_locked_change ⟨1, 2⟩ 20 (mark_recent_repairs [⟨1, 2⟩] 10 60 [])).1 = true ∧
    (is_locked_change ⟨1, 2⟩ 100 (mark_recent_repairs [⟨1, 2⟩] 10 60 [])).1 = false :=
  ⟨(C4_lockout_ttl [] [⟨1, 2⟩] ⟨1, 2⟩ 10 60 20 (by simp) (by norm_num)).1 (by norm_num),
   ((C4_lockout_ttl [] [⟨1, 2⟩] ⟨1, 2⟩ 10 60 100 (by simp) (by norm_num)).2
     (by norm_num)).1⟩

/-- Counterexample to C4 as stated: marking at `t0 = 0` with TTL `0` stores the
expiry `0.0`, which `is_locked_change` treats as absent (`if not exp`), so at
`t = -1 < t0 + L` the lock reports `false` although the claim requires `true`. -/
theorem C4_counterexample :
    ((-1 : ℚ) < 0 + 0) ∧
    (is_locked_change ⟨0, 0⟩ (-1) (mark_recent_repairs [⟨0, 0⟩] 0 0 [])).1 = false := by
  constructor
  · norm_num
  · simp [is_locked_change, mark_recent_repairs, alSet, alGet, _mk_key]

/-! ## Claims C2, C3, C10: batch tracker -/

theorem trackerInv_nil : TrackerInv [] := by
  intro rid e h
  simp [alGet] at h

theorem pendingCount_set_pending (e : BatchEntry) (n : Nat) :
    pendingCount { e with pending := n } = pendingCount e := rfl

theorem inv_recount_alSet (st : TrackerState) (rid : String) (e : BatchEntry)
    (hInv : TrackerInv st) : TrackerInv (tracker_recount rid (alSet st rid e)) := by
  unfold tracker_recount
  rw [alGet_alSet, if_pos rfl]
  intro rid' e' h
  rw [alGet_alSet] at h
  by_cases hr : rid' = rid
  · rw [if_pos hr] at h
    injection h with h
    subst h
    rfl
  · rw [if_neg hr, alGet_alSet, if_neg hr] at h
    exact hInv rid' e' h

theorem inv_create (st : TrackerState) (rid : String) (hInv : TrackerInv st) :
    TrackerInv (tracker_create rid st) := by
  unfold tracker_create
  intro rid' e' h
  rw [alGet_alSet] at h
  by_cases hr : rid' = rid
  · rw [if_pos hr] at h
    injection h with h
    subst h
    rfl
  · rw [if_neg hr] at h
    exact hInv rid' e' h

theorem inv_assign (st : TrackerState) (rid sid : String) (p : Payload) (attempt : Int)
    (hInv : TrackerInv st) : TrackerInv (tracker_assign rid sid p attempt st) := by
  unfold tracker_assign
  by_cases h : (alGet st rid).isSome
  · rcases Option.isSome_iff_exists.mp h with ⟨e, he⟩
    rw [if_pos h]
    simp only [he]
    exact inv_recount_alSet st rid _ hInv
  · rw [if_neg h]
    simp only [alGet_alSet, if_pos rfl]
    exact inv_recount_alSet _ rid _ (inv_create st rid hInv)

theorem inv_mark (st : TrackerState) (rid sid : String) (tX tY : Int)
    (coords : List Coord) (ok : Bool) (hInv : TrackerInv st) :
    TrackerInv (tracker_mark rid sid tX tY coords ok st) := by
  unfold tracker_mark
  cases h : alGet st rid with
  | none => exact hInv
  | some e => exact inv_recount_alSet st rid _ hInv

theorem inv_cleanup (st : TrackerState) (rid : String) (mr : Int) (hInv : TrackerInv st) :
    TrackerInv (tracker_cleanup rid mr st).2 := by
  unfold tracker_cleanup
  cases h : alGet st rid with
  | none => exact hInv
  | some e => exact inv_recount_alSet st rid _ hInv

/-- Claim C2 (amended): the pending-counter invariant is preserved by `create`,
`assign`, `mark` and `cleanup_abandoned_batches` (each of which recounts), but not
by `inc_attempts`, which resets an assignment's status to `'pending'` without
recounting (see `C2_counterexample`). -/
theorem C2_pending_invariant_amended (st : TrackerState) (hInv : TrackerInv st) :
    (∀ rid, TrackerInv (tracker_create rid st)) ∧
    (∀ rid sid p attempt, TrackerInv (tracker_assign rid sid p attempt st)) ∧
    (∀ rid sid tX tY coords ok, TrackerInv (tracker_mark rid sid tX tY coords ok st)) ∧
    (∀ rid mr, TrackerInv (tracker_cleanup rid mr st).2) :=
  ⟨fun rid => inv_create st rid hInv,
   fun rid sid p attempt => inv_assign st rid sid p attempt hInv,
   fun rid sid tX tY coords ok => inv_mark st rid sid tX tY coords ok hInv,
   fun rid mr => inv_cleanup st rid mr hInv⟩

/-- Witness for C2: the invariant holds after a concrete `create` and a concrete
`assign` on the empty tracker. -/
theorem C2_pending_invariant_amended_witness :
    TrackerInv (tracker_create "r" []) ∧
    TrackerInv (tracker_assign "r" "a" c3Payload 0 []) :=
  ⟨(C2_pending_invariant_amended [] trackerInv_nil).1 "r",
   (C2_pending_invariant_amended [] trackerInv_nil).2.1 "r" "a" c3Payload 0⟩

/-- Counterexample to C2 as stated: after `create; assign; mark(ok=false);
inc_attempts` (a reachable sequence), the stored `pending` counter is 0 while one
assignment has status `'pending'`: the invariant fails after `inc_attempts`. -/
theorem C2_counterexample :
    tracker_get_pending "r" staleState = 0 ∧
    tracker_actual_pending "r" staleState = 1 := by
  constructor
  · decide
  · decide

/-- Claim C3 evaluated at its failing input (code bug): with `maxRetries = 3` and a
single assignment whose paint results always report `ok=false`, after
`maxRetries + 1 = 4` failure rounds the batch is NOT abandoned: the assignment is
still tracked (status `'pending'`, so `cleanup_abandoned_batches` removes nothing)
and `get_pending` is 1, not 0. -/
theorem C3_retry_abandonment_code_bug :
    tracker_get_pending "r" (c3After 4) = 1 ∧
    tracker_actual_pending "r" (c3After 4) = 1 ∧
    (alGet (c3After 4) "r").isSome = true ∧
    (tracker_cleanup "r" 3 (c3After 4)).1 = 0 := by
  refine ⟨?_, ?_, ?_, ?_⟩ <;> decide

set_option maxRecDepth 4000 in
/-- Claim C10 (amended): for a request id absent from the tracker, all five
operations return their neutral values and leave the state unchanged; for an
existing request and an absent `(slave_id, batch_key)`, `inc_attempts` returns 0
and leaves the state unchanged, and `mark` leaves the state unchanged provided the
request's stored `pending` counter equals its actual pending count (`mark`
unconditionally recounts, see `C10_counterexample`). -/
theorem C10_missing_request_neutral (st : TrackerState) (rid sid key : String)
    (tX tY : Int) (coords : List Coord) (ok : Bool) (mr : Int) :
    (alGet st rid = none →
      tracker_mark rid sid tX tY coords ok st = st ∧
      tracker_inc rid sid key st = (0, st) ∧
      tracker_get_pending rid st = 0 ∧
      tracker_failed rid st = [] ∧
      tracker_cleanup rid mr st = (0, st)) ∧
    (∀ e, alGet st rid = some e →
      (alGet e.assignments (sid, key) = none → tracker_inc rid sid key st = (0, st)) ∧
      (alGet e.assignments (sid, batchKey tX tY coords) = none →
        e.pending = pendingCount e →
        tracker_mark rid sid tX tY coords ok st = st)) := by
  constructor
  · intro h
    refine ⟨?_, ?_, ?_, ?_, ?_⟩
    · simp [tracker_mark, h]
    · simp [tracker_inc, h]
    · simp [tracker_get_pending, h]
    · simp [tracker_failed, h]
    · simp [tracker_cleanup, h]
  · intro e he
    constructor
    · intro hk
      simp [tracker_inc, he, hk]
    · intro hk hpend
      have h2 : ({ e with pending := pendingCount e } : BatchEntry) = e := by
        rw [← hpend]
      unfold tracker_mark
      rw [he]
      simp only []
      rw [hk]
      simp only []
      rw [alSet_get_same st rid e he]
      unfold tracker_recount
      rw [he]
      simp only []
      rw [h2]
      exact alSet_get_same st rid e he

theorem c3Start_entry :
    alGet c3Start "r" = some
      { assignments := [(("a", batchKey 0 0 [⟨1, 2⟩]),
          { payload := c3Payload, attempts := 0, status := "pending",
            last_assigned_to := "a" })],
        pending := 1 } := by
  decide

/-- Witness for C10: the missing-request branch evaluated on the concrete tracker
state of the C3 scenario with the absent request id `"zz"`, and the
missing-key branch on request `"r"` with absent slave `"b"`. -/
theorem C10_missing_request_neutral_witness :
    (tracker_mark "zz" "a" 0 0 [] false c3Start = c3Start ∧
      tracker_inc "zz" "a" "k" c3Start = (0, c3Start) ∧
      tracker_get_pending "zz" c3Start = 0 ∧
      tracker_failed "zz" c3Start = [] ∧
      tracker_cleanup "zz" 3 c3Start = (0, c3Start)) ∧
    tracker_inc "r" "b" "k" c3Start = (0, c3Start) := by
  constructor
  · exact (C10_missing_request_neutral c3Start "zz" "a" "k" 0 0 [] false 3).1 (by decide)
  · exact ((C10_missing_request_neutral c3Start "r" "b" "k" 0 0 [] false 3).2 _
      c3Start_entry).1 (by decide)

/-- Counterexample to C10 as stated: on the reachable state `staleState` (whose
stored counter is stale), `mark` with an existing request id and an absent
`(slave_id, batch_key)` does change the tracker state - its unconditional
recount rewrites the `pending` counter from 0 to 1. -/
theorem C10_counterexample :
    tracker_mark "r" "b" 9 9 [] false staleState ≠ staleState ∧
    tracker_get_pending "r" (tracker_mark "r" "b" 9 9 [] false staleState) = 1 ∧
    tracker_get_pending "r" staleState = 0 := by
  refine ⟨?_, ?_, ?_⟩ <;> decide

/-! ## Claim C9: favorite-election invariant -/

theorem alGet_isSome_iff_mem {K V : Type} [DecidableEq K] (l : List (K × V)) (k : K) :
    (alGet l k).isSome = true ↔ k ∈ alKeys l := by
  induction l with
  | nil => simp [alGet, alKeys]
  | cons p rest ih =>
    by_cases hp : p.1 = k
    · simp [alGet, alKeys, hp]
    · simp only [alGet, alKeys, List.map_cons, List.mem_cons]
      rw [if_neg hp]
      constructor
      · intro h
        exact Or.inr (ih.mp h)
      · rintro (h | h)
        · exact absurd h.symm hp
        · exact ih.mpr h

theorem mem_alKeys_cons {K V : Type} (p : K × V) (l : List (K × V)) (k : K) :
    k ∈ alKeys (p :: l) ↔ k = p.1 ∨ k ∈ alKeys l := by
  simp [alKeys]

theorem favCount_nil : favCount [] = 0 := rfl

theorem favCount_cons (p : String × SlaveRec) (l : RegState) :
    favCount (p :: l) = if p.2.is_favorite then favCount l + 1 else favCount l := by
  simp only [favCount, List.filter_cons]
  split <;> simp_all

theorem favCount_append (l1 l2 : RegState) :
    favCount (l1 ++ l2) = favCount l1 + favCount l2 := by
  simp [favCount, List.filter_append]

theorem favCount_alErase_of_get (l : RegState) (k : String) (v : SlaveRec)
    (h : alGet l k = some v) :
    favCount (alErase l k) + (if v.is_favorite then 1 else 0) = favCount l := by
  induction l with
  | nil => simp [alGet] at h
  | cons p rest ih =>
    by_cases hp : p.1 = k
    · simp only [alGet] at h
      rw [if_pos hp] at h
      injection h with h
      subst h
      simp only [alErase]
      rw [if_pos hp, favCount_cons]
      by_cases hf : p.2.is_favorite = true <;> simp [hf]
    · simp only [alGet] at h
      rw [if_neg hp] at h
      simp only [alErase]
      rw [if_neg hp, favCount_cons, favCount_cons]
      have hih := ih h
      by_cases hf : p.2.is_favorite = true <;> simp [hf] <;> omega

theorem favCount_map_mark_zero (l : RegState) (nid : String) (h : nid ∉ alKeys l) :
    favCount (l.map fun p => (p.1, (⟨decide (p.1 = nid)⟩ : SlaveRec))) = 0 := by
  induction l with
  | nil => rfl
  | cons p rest ih =>
    rw [List.map_cons, favCount_cons]
    have hck := (mem_alKeys_cons p rest nid).not.mp h
    push_neg at hck
    have hne : ¬(p.1 = nid) := fun hh => hck.1 hh.symm
    rw [if_neg (by simp [hne])]
    exact ih hck.2

theorem favCount_map_mark (l : RegState) (nid : String) (hnod : (alKeys l).Nodup)
    (hmem : nid ∈ alKeys l) :
    favCount (l.map fun p => (p.1, (⟨decide (p.1 = nid)⟩ : SlaveRec))) = 1 := by
  induction l with
  | nil => cases hmem
  | cons p rest ih =>
    have hnod2 : (alKeys rest).Nodup ∧ p.1 ∉ alKeys rest := by
      have := hnod
      simp only [alKeys, List.map_cons, List.nodup_cons] at this
      exact ⟨this.2, this.1⟩
    rw [List.map_cons, favCount_cons]
    by_cases hp : p.1 = nid
    · rw [if_pos (by simp [hp])]
      rw [favCount_map_mark_zero rest nid (hp ▸ hnod2.2)]
    · rw [if_neg (by simp [hp])]
      rcases (mem_alKeys_cons p rest nid).mp hmem with h | h
      · exact absurd h.symm hp
      · exact ih hnod2.1 h

theorem favCount_map_false (l : RegState) :
    favCount (l.map fun p => (p.1, (⟨false⟩ : SlaveRec))) = 0 := by
  induction l with
  | nil => rfl
  | cons p rest ih =>
    rw [List.map_cons, favCount_cons]
    simpa using ih

theorem favCount_alUpdate_true (l : RegState) (sid : String)
    (hmem : sid ∈ alKeys l) (hzero : favCount l = 0) :
    favCount (alUpdate l sid fun _ => (⟨true⟩ : SlaveRec)) = 1 := by
  induction l with
  | nil => cases hmem
  | cons p rest ih =>
    rw [favCount_cons] at hzero
    have hrest : favCount rest = 0 := by
      by_cases hf : p.2.is_favorite = true <;> simp [hf] at hzero <;> omega
    by_cases hp : p.1 = sid
    · simp only [alUpdate]
      rw [if_pos hp, favCount_cons]
      simp [hrest]
    · simp only [alUpdate]
      rw [if_neg hp, favCount_cons]
      have hpf : p.2.is_favorite = false := by
        by_cases hf : p.2.is_favorite = true
        · rw [hf] at hzero; simp at hzero
        · simpa using hf
      rcases (mem_alKeys_cons p rest sid).mp hmem with h | h
      · exact absurd h.symm hp
      · rw [hpf]
        simpa using ih h hrest

theorem alKeys_alErase_sublist {K V : Type} [DecidableEq K] (l : List (K × V)) (k : K) :
    List.Sublist (alKeys (alErase l k)) (alKeys l) := by
  induction l with
  | nil => simp [alErase, alKeys]
  | cons p rest ih =>
    by_cases hp : p.1 = k
    · simp only [alErase]
      rw [if_pos hp]
      exact List.sublist_cons_self _ _
    · simp only [alErase]
      rw [if_neg hp]
      exact List.Sublist.cons₂ p.1 ih

theorem alKeys_alUpdate {K V : Type} [DecidableEq K] (l : List (K × V)) (k : K)
    (f : V → V) : alKeys (alUpdate l k f) = alKeys l := by
  induction l with
  | nil => rfl
  | cons p rest ih =>
    by_cases hp : p.1 = k
    · simp only [alUpdate]
      rw [if_pos hp]
      simp [alKeys]
    · simp only [alUpdate]
      rw [if_neg hp]
      simpa [alKeys] using ih

theorem alKeys_map_flags (l : RegState) (f : String × SlaveRec → SlaveRec) :
    alKeys (l.map fun p => (p.1, f p)) = alKeys l := by
  induction l with
  | nil => rfl
  | cons p rest ih => simpa [alKeys] using ih

/-- Equation: disconnecting an unknown slave is a no-op. -/
theorem disconnect_eq_none (sid : String) (st : RegState)
    (h : alGet st sid = none) : disconnect_slave sid st = st := by
  unfold disconnect_slave
  rw [h]
  simp only []
  rw [alErase_get_none st sid h]
  simp

/-- Equation: disconnecting a non-favorite slave just erases it. -/
theorem disconnect_eq_nonfav (sid : String) (st : RegState) (s : SlaveRec)
    (h : alGet st sid = some s) (hf : s.is_favorite = false) :
    disconnect_slave sid st = alErase st sid := by
  unfold disconnect_slave
  rw [h]
  simp only [hf]
  simp

/-- Equation: disconnecting the favorite when nobody remains. -/
theorem disconnect_eq_fav_nil (sid : String) (st : RegState) (s : SlaveRec)
    (h : alGet st sid = some s) (hf : s.is_favorite = true)
    (hE : alErase st sid = []) : disconnect_slave sid st = [] := by
  unfold disconnect_slave
  rw [h]
  simp only [hf, hE]
  simp

/-- Equation: disconnecting the favorite re-elects the first remaining slave. -/
theorem disconnect_eq_fav_cons (sid : String) (st : RegState) (s : SlaveRec)
    (q : String × SlaveRec) (rest : RegState)
    (h : alGet st sid = some s) (hf : s.is_favorite = true)
    (hE : alErase st sid = q :: rest) :
    disconnect_slave sid st =
      (q :: rest).map fun p => (p.1, (⟨decide (p.1 = q.1)⟩ : SlaveRec)) := by
  unfold disconnect_slave
  rw [h]
  simp only [hf, hE]
  rw [if_pos (by simp)]

theorem regGood_nil : RegGood [] :=
  ⟨List.nodup_nil, by simp [favCount_nil], fun h => absurd rfl h⟩

theorem regGood_connect (sid : String) (st : RegState) (h : RegGood st) :
    RegGood (connect_slave sid st) := by
  unfold connect_slave
  by_cases hs : (alGet st sid).isSome
  · rw [if_pos hs]; exact h
  · rw [if_neg hs]
    have hnotmem : sid ∉ alKeys st := fun hm =>
      hs ((alGet_isSome_iff_mem st sid).mpr hm)
    rcases h with ⟨hnod, hle, hne⟩
    by_cases hst : st = []
    · subst hst
      refine ⟨?_, ?_, ?_⟩ <;> simp [alKeys, favCount_cons, favCount_nil]
    · have h1 : favCount st = 1 := hne hst
      have hEm : st.isEmpty = false := by
        cases st with
        | nil => exact absurd rfl hst
        | cons q r => rfl
      rw [hEm]
      have h0 : favCount [(sid, (⟨false⟩ : SlaveRec))] = 0 := rfl
      refine ⟨?_, ?_, ?_⟩
      · simp only [alKeys, List.map_append, List.map_cons, List.map_nil]
        rw [List.nodup_append]
        refine ⟨hnod, List.nodup_singleton sid, ?_⟩
        intro a ha hb
        simp only [List.mem_singleton] at hb
        exact hnotmem (hb ▸ ha)
      · rw [favCount_append, h1, h0]
      · intro _
        rw [favCount_append, h1, h0]

theorem regGood_disconnect (sid : String) (st : RegState) (h : RegGood st) :
    RegGood (disconnect_slave sid st) := by
  rcases h with ⟨hnod, hle, hne⟩
  have hnodE : (alKeys (alErase st sid)).Nodup :=
    hnod.sublist (alKeys_alErase_sublist st sid)
  cases hget : alGet st sid with
  | none =>
    rw [disconnect_eq_none sid st hget]
    exact ⟨hnod, hle, hne⟩
  | some s =>
    by_cases hf : s.is_favorite = true
    · by_cases hE : alErase st sid = []
      · rw [disconnect_eq_fav_nil sid st s hget hf hE]
        exact regGood_nil
      · cases hcase : alErase st sid with
        | nil => exact absurd hcase hE
        | cons q rest =>
          rw [disconnect_eq_fav_cons sid st s q rest hget hf hcase]
          have hmem : q.1 ∈ alKeys (q :: rest) := by
            rw [mem_alKeys_cons]; exact Or.inl rfl
          have hnodC : (alKeys (q :: rest)).Nodup := hcase ▸ hnodE
          have hone := favCount_map_mark (q :: rest) q.1 hnodC hmem
          refine ⟨?_, ?_, ?_⟩
          · rw [alKeys_map_flags]
            exact hnodC
          · rw [hone]
          · intro _; exact hone
    · have hf2 : s.is_favorite = false := by simpa using hf
      rw [disconnect_eq_nonfav sid st s hget hf2]
      have hcount := favCount_alErase_of_get st sid s hget
      rw [hf2] at hcount
      simp only [Bool.false_eq_true, if_false, Nat.add_zero] at hcount
      refine ⟨hnodE, hcount ▸ hle, ?_⟩
      intro hne2
      have hstne : st ≠ [] := by
        rintro rfl
        exact hne2 rfl
      rw [hcount]
      exact hne hstne

theorem regGood_setFav (sid : String) (st : RegState) (h : RegGood st) :
    RegGood (set_favorite_slave sid st).2 := by
  rcases h with ⟨hnod, hle, hne⟩
  unfold set_favorite_slave
  by_cases hs : (alGet st sid).isSome
  · rw [if_pos hs]
    have hmem : sid ∈ alKeys st := (alGet_isSome_iff_mem st sid).mp hs
    have hmem2 : sid ∈ alKeys (st.map fun p => (p.1, (⟨false⟩ : SlaveRec))) := by
      rw [alKeys_map_flags]; exact hmem
    have hone : favCount (alUpdate (st.map fun p => (p.1, (⟨false⟩ : SlaveRec))) sid
        fun _ => (⟨true⟩ : SlaveRec)) = 1 :=
      favCount_alUpdate_true _ sid hmem2 (favCount_map_false st)
    refine ⟨?_, ?_, ?_⟩
    · rw [alKeys_alUpdate, alKeys_map_flags]
      exact hnod
    · exact hone.le
    · intro _; exact hone
  · rw [if_neg hs]
    exact ⟨hnod, hle, hne⟩

theorem regGood_step (st : RegState) (op : RegOp) (h : RegGood st) :
    RegGood (regStep st op) := by
  cases op with
  | connect sid => exact regGood_connect sid st h
  | disconnect sid => exact regGood_disconnect sid st h
  | setFav sid => exact regGood_setFav sid st h

theorem regGood_foldl (ops : List RegOp) :
    ∀ st, RegGood st → RegGood (ops.foldl regStep st) := by
  induction ops with
  | nil => exact fun st h => h
  | cons op rest ih => exact fun st h => ih (regStep st op) (regGood_step st op h)

theorem regGood_runRegOps (ops : List RegOp) : RegGood (runRegOps ops) :=
  regGood_foldl ops [] regGood_nil

/-- Claim C9: in every registry state reachable from the empty registry by any
sequence of `connect_slave`, `disconnect_slave` and `set_favorite_slave`
operations, at most one connected worker has `is_favorite = true`, and whenever
the set of connected workers is non-empty exactly one of them is favorite. -/
theorem C9_favorite_invariant (ops : List RegOp) :
    favCount (runRegOps ops) ≤ 1 ∧
    (runRegOps ops ≠ [] → favCount (runRegOps ops) = 1) :=
  ⟨(regGood_runRegOps ops).2.1, (regGood_runRegOps ops).2.2⟩

/-! ## Claim C6: `_line_up` orders a permutation of the pool by rows -/

theorem flatMap_congr_mem {α β : Type} (l : List α) (f g : α → List β)
    (h : ∀ a ∈ l, f a = g a) : l.flatMap f = l.flatMap g := by
  induction l with
  | nil => rfl
  | cons a rest ih =>
    rw [List.flatMap_cons, List.flatMap_cons, h a (by simp),
      ih fun b hb => h b (by simp [hb])]

theorem flatMap_perm_of_block_perm {α β : Type} (l : List α) (f g : α → List β)
    (h : ∀ a ∈ l, (f a).Perm (g a)) : (l.flatMap f).Perm (l.flatMap g) := by
  induction l with
  | nil => exact List.Perm.refl _
  | cons a rest ih =>
    rw [List.flatMap_cons, List.flatMap_cons]
    exact (h a (by simp)).append (ih fun b hb => h b (by simp [hb]))

theorem flatMap_filter_perm {β : Type} (key : β → Int) :
    ∀ (keys : List Int) (l : List β), keys.Nodup → (∀ c ∈ l, key c ∈ keys) →
    (keys.flatMap fun y => l.filter fun c => decide (key c = y)).Perm l := by
  intro keys
  induction keys with
  | nil =>
    intro l _ hcomp
    have : l = [] := by
      rw [List.eq_nil_iff_forall_not_mem]
      intro c hc
      exact absurd (hcomp c hc) (List.not_mem_nil _)
    rw [this]
    exact List.Perm.refl _
  | cons k ks ih =>
    intro l hnod hcomp
    rw [List.flatMap_cons]
    have hknot : k ∉ ks := (List.nodup_cons.mp hnod).1
    have hswap : ∀ y ∈ ks, (l.filter fun c => decide (key c = y)) =
        ((l.filter fun c => !decide (key c = k)).filter fun c => decide (key c = y)) := by
      intro y hy
      rw [List.filter_filter]
      refine (List.filter_congr ?_).symm
      intro c _
      by_cases hcy : key c = y
      · have : ¬(key c = k) := fun hck => hknot ((hck ▸ hcy) ▸ hy)
        simp [hcy, this]
        exact fun hyk => hknot (hyk ▸ hy)
      · simp [hcy]
    have hrw : (ks.flatMap fun y => l.filter fun c => decide (key c = y)) =
        ks.flatMap fun y =>
          (l.filter fun c => !decide (key c = k)).filter fun c => decide (key c = y) :=
      flatMap_congr_mem ks _ _ hswap
    rw [hrw]
    have hcomp2 : ∀ c ∈ l.filter fun c => !decide (key c = k), key c ∈ ks := by
      intro c hc
      rcases List.mem_filter.mp hc with ⟨hcl, hck⟩
      rcases List.mem_cons.mp (hcomp c hcl) with h | h
      · simp [h] at hck
      · exact h
    have hih := ih (l.filter fun c => !decide (key c = k)) (List.nodup_cons.mp hnod).2
      hcomp2
    exact (List.Perm.append_left _ hih).trans (List.filter_append_perm _ l)

theorem pairwise_lt_of_sorted_nodup (l : List Int)
    (hs : List.Pairwise (fun a b => a ≤ b) l) (hn : l.Nodup) :
    List.Pairwise (fun a b : Int => a < b) l :=
  (hs.and hn).imp fun h => lt_of_le_of_ne h.1 h.2

theorem pairwise_flatMap_blocks {α : Type} (f : Int → List (Chg α)) :
    ∀ keys : List Int, List.Pairwise (fun a b : Int => a < b) keys →
    (∀ y, ∀ c ∈ f y, c.y = y) →
    (∀ y, List.Pairwise (fun a b : Chg α => a.x ≤ b.x) (f y)) →
    List.Pairwise RowOrder (keys.flatMap f) := by
  intro keys
  induction keys with
  | nil => intro _ _ _; simp
  | cons k ks ih =>
    intro hkeys hy hx
    rw [List.flatMap_cons, List.pairwise_append]
    rcases List.pairwise_cons.mp hkeys with ⟨hklt, htail⟩
    refine ⟨?_, ih htail hy hx, ?_⟩
    · refine List.Pairwise.imp_of_mem ?_ (hx k)
      intro a b ha hb hab
      exact Or.inr ⟨(hy k a ha).trans (hy k b hb).symm, hab⟩
    · intro a ha b hb
      rcases List.mem_flatMap.mp hb with ⟨y, hyks, hby⟩
      left
      rw [hy k a ha, hy y b hby]
      exact hklt y hyks

/-- Claim C6: `_line_up(pool)` is a permutation of the pool in which elements
appear in ascending order of `y` and, among equal `y`, in ascending order of
`x`. -/
theorem C6_line_up_sorted_perm {α : Type} (changes : List (Chg α)) :
    (_line_up changes).Perm changes ∧ List.Pairwise RowOrder (_line_up changes) := by
  have hkeysPerm : (((changes.map (·.y)).dedup).mergeSort
      fun a b => decide (a ≤ b)).Perm (changes.map (·.y)).dedup :=
    List.mergeSort_perm _ _
  have hnod : (((changes.map (·.y)).dedup).mergeSort
      fun a b => decide (a ≤ b)).Nodup :=
    hkeysPerm.symm.nodup (List.nodup_dedup _)
  have hcomp : ∀ c ∈ changes, c.y ∈ ((changes.map (·.y)).dedup).mergeSort
      fun a b => decide (a ≤ b) := by
    intro c hc
    rw [List.mem_mergeSort, List.mem_dedup]
    exact List.mem_map_of_mem _ hc
  constructor
  · unfold _line_up
    refine List.Perm.trans ?_
      (flatMap_filter_perm (fun c : Chg α => c.y) _ changes hnod hcomp)
    exact flatMap_perm_of_block_perm _ _ _ fun y _ => List.mergeSort_perm _ _
  · unfold _line_up
    refine pairwise_flatMap_blocks _ _ ?_ ?_ ?_
    · refine pairwise_lt_of_sorted_nodup _ ?_ hnod
      have := @List.sorted_mergeSort Int
        (fun a b : Int => decide (a ≤ b))
        (fun a b c hab hbc => by
          simp only [decide_eq_true_eq] at *
          omega)
        (fun a b => by
          simp only [Bool.or_eq_true, decide_eq_true_eq]
          omega)
        (changes.map (·.y)).dedup
      exact this.imp fun h => of_decide_eq_true h
    · intro y c hc
      have := List.mem_mergeSort.mp hc
      exact of_decide_eq_true (List.mem_filter.mp this).2
    · intro y
      have := @List.sorted_mergeSort (Chg α)
        (fun a b : Chg α => decide (a.x ≤ b.x))
        (fun a b c hab hbc => by
          simp only [decide_eq_true_eq] at *
          omega)
        (fun a b => by
          simp only [Bool.or_eq_true, decide_eq_true_eq]
          omega)
        (changes.filter fun c => decide (c.y = y))
      exact this.imp fun h => of_decide_eq_true h

/-! ## Claim C1: the distribution planner -/

theorem alGet_eq_of_mem_nodup {K V : Type} [DecidableEq K] (l : List (K × V)) (k : K)
    (v : V) (hnod : (alKeys l).Nodup) (hmem : (k, v) ∈ l) : alGet l k = some v := by
  induction l with
  | nil => cases hmem
  | cons p rest ih =>
    have hnod2 : (alKeys rest).Nodup ∧ p.1 ∉ alKeys rest := by
      have := hnod
      simp only [alKeys, List.map_cons, List.nodup_cons] at this
      exact ⟨this.2, this.1⟩
    rcases List.mem_cons.mp hmem with h | h
    · subst h
      simp [alGet]
    · have hk : k ∈ alKeys rest := by
        simp only [alKeys, List.mem_map]
        exact ⟨(k, v), h, rfl⟩
      have hne : ¬(p.1 = k) := fun hh => hnod2.2 (hh ▸ hk)
      simp only [alGet]
      rw [if_neg hne]
      exact ih hnod2.1 h

theorem alGet_eq_none_of_not_mem {K V : Type} [DecidableEq K] (l : List (K × V))
    (k : K) (h : k ∉ alKeys l) : alGet l k = none := by
  cases hget : alGet l k with
  | none => rfl
  | some v =>
    exact absurd ((alGet_isSome_iff_mem l k).mp (by rw [hget]; rfl)) h

theorem alKeys_validCharges (charges : List (String × Int)) :
    alKeys (validCharges charges) = alKeys (charges.filter fun p => decide (0 < p.2)) := by
  unfold validCharges
  induction charges.filter fun p => decide (0 < p.2) with
  | nil => rfl
  | cons p rest ih => simpa [alKeys] using ih

theorem validCharges_keys_nodup (charges : List (String × Int))
    (hnod : (alKeys charges).Nodup) : (alKeys (validCharges charges)).Nodup := by
  rw [alKeys_validCharges]
  exact hnod.sublist ((List.filter_sublist charges).map Prod.fst)

theorem validCharges_pos (charges : List (String × Int)) :
    ∀ p ∈ validCharges charges, 0 < p.2 := by
  intro p hp
  unfold validCharges at hp
  rcases List.mem_map.mp hp with ⟨q, hq, hqe⟩
  rcases List.mem_filter.mp hq with ⟨_, hqpos⟩
  have : 0 < q.2 := of_decide_eq_true hqpos
  rw [← hqe]
  simpa using this

theorem validCharges_sum (charges : List (String × Int))
    (hnonneg : ∀ p ∈ charges, 0 ≤ p.2) :
    (((validCharges charges).map (·.2)).sum : Int) = (charges.map (·.2)).sum := by
  induction charges with
  | nil => rfl
  | cons p rest ih =>
    have hrest := ih fun q hq => hnonneg q (List.mem_cons_of_mem p hq)
    by_cases hp : 0 < p.2
    · unfold validCharges
      rw [List.filter_cons_of_pos (by simpa using hp)]
      simp only [List.map_cons, List.sum_cons]
      unfold validCharges at hrest
      push_cast
      rw [Int.toNat_of_nonneg (le_of_lt hp)]
      omega
    · have hz : p.2 = 0 := le_antisymm (not_lt.mp hp) (hnonneg p (by simp))
      unfold validCharges
      rw [List.filter_cons_of_neg (by simpa using hp)]
      rw [List.map_cons, List.sum_cons, hz]
      unfold validCharges at hrest
      omega

theorem sum_charges_nonneg (charges : List (String × Int))
    (hnonneg : ∀ p ∈ charges, 0 ≤ p.2) : 0 ≤ (charges.map (·.2)).sum := by
  induction charges with
  | nil => simp
  | cons p rest ih =>
    rw [List.map_cons, List.sum_cons]
    have := hnonneg p (by simp)
    have := ih fun q hq => hnonneg q (List.mem_cons_of_mem p hq)
    omega

theorem sum_charges_zero_of_valid_nil (charges : List (String × Int))
    (hnonneg : ∀ p ∈ charges, 0 ≤ p.2) (hnil : validCharges charges = []) :
    (charges.map (·.2)).sum = 0 := by
  have := validCharges_sum charges hnonneg
  rw [hnil] at this
  simpa using this.symm

theorem chargeOf_mem (valid : List (String × Nat)) (p : String × Nat)
    (hnod : (alKeys valid).Nodup) (hmem : p ∈ valid) : chargeOf valid p.1 = p.2 := by
  unfold chargeOf
  rw [alGet_eq_of_mem_nodup valid p.1 p.2 hnod hmem]
  rfl

theorem chargeOf_not_mem (valid : List (String × Nat)) (s : String)
    (h : s ∉ alKeys valid) : chargeOf valid s = 0 := by
  unfold chargeOf
  rw [alGet_eq_none_of_not_mem valid s h]
  rfl

theorem plan_sum_transfer (charges : List (String × Int)) (plan : String → Nat)
    (hzero : ∀ p ∈ charges, ¬(0 < p.2) → plan p.1 = 0) :
    ((charges.map fun p => plan p.1).sum) =
      ((alKeys (validCharges charges)).map plan).sum := by
  induction charges with
  | nil => rfl
  | cons p rest ih =>
    have hrest := ih fun q hq h => hzero q (List.mem_cons_of_mem p hq) h
    by_cases hp : 0 < p.2
    · unfold validCharges
      rw [List.filter_cons_of_pos (by simpa using hp)]
      simp only [List.map_cons, List.sum_cons, alKeys]
      unfold validCharges at hrest
      simp only [alKeys] at hrest
      omega
    · unfold validCharges
      rw [List.filter_cons_of_neg (by simpa using hp)]
      simp only [List.map_cons, List.sum_cons]
      rw [hzero p (by simp) hp]
      unfold validCharges at hrest
      omega

theorem capSum_plus_planSum (order : List String) (validF plan : String → Nat)
    (h : ∀ s, plan s ≤ validF s) :
    capSum order validF plan + planSum order plan = (order.map validF).sum := by
  induction order with
  | nil => rfl
  | cons s rest ih =>
    simp only [capSum, planSum, List.map_cons, List.sum_cons] at *
    have := h s
    omega

theorem capSum_update (order : List String) (validF plan : String → Nat) (sid : String)
    (hnod : order.Nodup) (hmem : sid ∈ order) (hlt : plan sid < validF sid) :
    capSum order validF (Function.update plan sid (plan sid + 1)) + 1 =
      capSum order validF plan := by
  induction order with
  | nil => cases hmem
  | cons a rest ih =>
    rcases List.nodup_cons.mp hnod with ⟨hna, hnr⟩
    simp only [capSum, List.map_cons, List.sum_cons] at *
    rcases List.mem_cons.mp hmem with h | h
    · subst h
      rw [Function.update_same]
      have hcongr : (rest.map fun s => validF s -
          Function.update plan sid (plan sid + 1) s) =
          rest.map fun s => validF s - plan s := by
        refine List.map_congr_left ?_
        intro s hs
        have hne2 : s ≠ sid := by
          intro hh
          apply hna
          rw [← hh]
          exact hs
        rw [Function.update_noteq hne2]
      rw [hcongr]
      omega
    · have hne : a ≠ sid := by
        intro hh
        apply hna
        rw [hh]
        exact h
      rw [Function.update_noteq hne]
      have := ih hnr h
      omega

theorem mem_alKeys_of_mem {K V : Type} (l : List (K × V)) (p : K × V) (h : p ∈ l) :
    p.1 ∈ alKeys l :=
  List.mem_map_of_mem _ h

theorem greedy_spec :
    ∀ (l : List (String × Nat)) (remaining : Nat) (plan : String → Nat),
    (alKeys l).Nodup → (∀ p ∈ l, plan p.1 = 0) →
    (∀ s, s ∉ alKeys l → greedyAlloc l remaining plan s = plan s) ∧
    (∀ p ∈ l, greedyAlloc l remaining plan p.1 ≤ p.2) ∧
    ((l.map fun p => greedyAlloc l remaining plan p.1).sum =
      min remaining ((l.map (·.2)).sum)) := by
  intro l
  induction l with
  | nil =>
    intro remaining plan _ _
    refine ⟨fun s _ => rfl, fun p hp => absurd hp (List.not_mem_nil p), ?_⟩
    simp [greedyAlloc]
  | cons q rest ih =>
    intro remaining plan hnod hzero
    obtain ⟨s, ch⟩ := q
    have hnod2 : (alKeys rest).Nodup ∧ s ∉ alKeys rest := by
      have := hnod
      simp only [alKeys, List.map_cons, List.nodup_cons] at this
      exact ⟨this.2, this.1⟩
    by_cases hrem : remaining = 0
    · subst hrem
      have hgr : greedyAlloc ((s, ch) :: rest) 0 plan = plan := by
        simp [greedyAlloc]
      rw [hgr]
      refine ⟨fun _ _ => rfl, ?_, ?_⟩
      · intro p hp
        rw [hzero p hp]
        exact Nat.zero_le _
      · have hallz : (List.map (fun p => plan p.1) ((s, ch) :: rest)).sum = 0 := by
          rw [List.sum_eq_zero]
          intro x hx
          rcases List.mem_map.mp hx with ⟨p, hp, hpe⟩
          rw [← hpe, hzero p hp]
        rw [hallz]
        simp
    · have hstep : greedyAlloc ((s, ch) :: rest) remaining plan =
          greedyAlloc rest (remaining - min ch remaining)
            (Function.update plan s (min ch remaining)) := by
        simp only [greedyAlloc]
        rw [if_neg hrem]
      have hzero2 : ∀ p ∈ rest, Function.update plan s (min ch remaining) p.1 = 0 := by
        intro p hp
        have hne : p.1 ≠ s := by
          intro hh
          apply hnod2.2
          rw [← hh]
          exact mem_alKeys_of_mem rest p hp
        rw [Function.update_noteq hne]
        exact hzero p (List.mem_cons_of_mem _ hp)
      obtain ⟨iha, ihb, ihc⟩ := ih (remaining - min ch remaining)
        (Function.update plan s (min ch remaining)) hnod2.1 hzero2
      have hhead : greedyAlloc ((s, ch) :: rest) remaining plan s = min ch remaining := by
        rw [hstep, iha s hnod2.2, Function.update_same]
      refine ⟨?_, ?_, ?_⟩
      · intro t ht
        rw [mem_alKeys_cons] at ht
        push_neg at ht
        rw [hstep, iha t ht.2, Function.update_noteq ht.1]
      · intro p hp
        rcases List.mem_cons.mp hp with h | h
        · subst h
          show greedyAlloc ((s, ch) :: rest) remaining plan s ≤ ch
          rw [hhead]
          exact Nat.min_le_left ch remaining
        · rw [hstep]
          exact ihb p h
      · rw [List.map_cons, List.sum_cons, hhead]
        have hcongr : (rest.map fun p => greedyAlloc ((s, ch) :: rest) remaining plan p.1)
            = rest.map fun p => greedyAlloc rest (remaining - min ch remaining)
                (Function.update plan s (min ch remaining)) p.1 := by
          refine List.map_congr_left ?_
          intro p _
          rw [hstep]
        rw [hcongr, ihc, List.map_cons, List.sum_cons]
        omega

theorem planSum_update_succ (order : List String) (plan : String → Nat) (sid : String)
    (hnod : order.Nodup) (hmem : sid ∈ order) :
    planSum order (Function.update plan sid (plan sid + 1)) = planSum order plan + 1 := by
  induction order with
  | nil => cases hmem
  | cons a rest ih =>
    rcases List.nodup_cons.mp hnod with ⟨hna, hnr⟩
    simp only [planSum, List.map_cons, List.sum_cons] at *
    rcases List.mem_cons.mp hmem with h | h
    · subst h
      rw [Function.update_same]
      have hcongr : rest.map (Function.update plan sid (plan sid + 1)) = rest.map plan := by
        refine List.map_congr_left ?_
        intro s hs
        have hne2 : s ≠ sid := by
          intro hh
          apply hna
          rw [← hh]
          exact hs
        rw [Function.update_noteq hne2]
      rw [hcongr]
      omega
    · have hne : a ≠ sid := by
        intro hh
        apply hna
        rw [hh]
        exact h
      rw [Function.update_noteq hne]
      have := ih hnr h
      omega

theorem getD_eq_getElem (l : List String) (i : Nat) (h : i < l.length) :
    l.getD i "" = l.get ⟨i, h⟩ := by
  rw [List.getD_eq_getElem?_getD, List.getElem?_eq_getElem h]
  rfl

theorem getD_mem (l : List String) (i : Nat) (h : i < l.length) : l.getD i "" ∈ l := by
  rw [getD_eq_getElem l i h]
  exact List.getElem_mem h

theorem offset_mod_eq (i m L : Nat) (hm : m < L) :
    (i + (m + L - i % L) % L) % L = m := by
  have hL : 0 < L := by omega
  have ha : i % L < L := Nat.mod_lt _ hL
  have hi : L * (i / L) + i % L = i := Nat.div_add_mod i L
  by_cases hma : i % L ≤ m
  · have hj : (m + L - i % L) % L = m - i % L := by
      have h1 : m + L - i % L = (m - i % L) + L := by omega
      rw [h1, Nat.add_mod_right]
      exact Nat.mod_eq_of_lt (by omega)
    rw [hj]
    have h2 : i + (m - i % L) = L * (i / L) + m := by omega
    rw [h2, Nat.mul_add_mod]
    exact Nat.mod_eq_of_lt hm
  · have hj : (m + L - i % L) % L = m + L - i % L := Nat.mod_eq_of_lt (by omega)
    rw [hj]
    have h2 : i + (m + L - i % L) = L * (i / L) + m + L := by omega
    rw [h2, Nat.add_mod_right, Nat.mul_add_mod]
    exact Nat.mod_eq_of_lt hm

theorem capSum_pos_exists (l : List String) (validF plan : String → Nat)
    (hcap : 0 < capSum l validF plan) : ∃ s ∈ l, plan s < validF s := by
  by_contra hno
  push_neg at hno
  have hz : capSum l validF plan = 0 := by
    unfold capSum
    rw [List.sum_eq_zero]
    intro x hx
    rcases List.mem_map.mp hx with ⟨t, ht, hte⟩
    have := hno t ht
    omega
  omega

theorem exists_hit_offset (l : List String) (validF plan : String → Nat) (i : Nat)
    (hcap : 0 < capSum l validF plan) :
    ∃ j, j < l.length ∧
      plan (l.getD ((i + j) % l.length) "") < validF (l.getD ((i + j) % l.length) "") := by
  obtain ⟨s, hs, hh⟩ := capSum_pos_exists l validF plan hcap
  obtain ⟨m, hmlt, hms⟩ := List.getElem_of_mem hs
  have hL : 0 < l.length := by omega
  refine ⟨(m + l.length - i % l.length) % l.length, Nat.mod_lt _ hL, ?_⟩
  rw [offset_mod_eq i m l.length hmlt]
  have hgd : l.getD m "" = s := by
    rw [getD_eq_getElem l m hmlt]
    exact hms
  rw [hgd]
  exact hh

theorem all_sat_false_of_headroom (l : List String) (validF plan : String → Nat)
    (hex : ∃ s ∈ l, plan s < validF s) :
    ¬(l.all (fun s => decide (validF s ≤ plan s)) = true) := by
  intro hall
  obtain ⟨s, hs, hh⟩ := hex
  have := of_decide_eq_true (List.all_eq_true.mp hall s hs)
  omega

theorem rrLoop_succ_stop (order : List String) (validF : String → Nat)
    (fuel : Nat) (plan : String → Nat) (idx assigned target : Nat)
    (h : ¬(assigned < target ∧ order ≠ [])) :
    rrLoop order validF (fuel + 1) plan idx assigned target = (plan, assigned) := by
  simp only [rrLoop]
  rw [if_neg h]

theorem rrLoop_succ_hit_stop (order : List String) (validF : String → Nat)
    (fuel : Nat) (plan : String → Nat) (idx assigned target : Nat) (sid : String)
    (hsid : order.getD (idx % order.length) "" = sid)
    (hc : assigned < target ∧ order ≠ [])
    (hhit : plan sid < validF sid)
    (hbrk : assigned + 1 < target ∧
      order.all (fun s => decide (validF s ≤ Function.update plan sid (plan sid + 1) s)) = true) :
    rrLoop order validF (fuel + 1) plan idx assigned target =
      (Function.update plan sid (plan sid + 1), assigned + 1) := by
  simp only [rrLoop]
  rw [hsid, if_pos hc, if_pos hhit, if_pos hbrk]

theorem rrLoop_succ_hit_go (order : List String) (validF : String → Nat)
    (fuel : Nat) (plan : String → Nat) (idx assigned target : Nat) (sid : String)
    (hsid : order.getD (idx % order.length) "" = sid)
    (hc : assigned < target ∧ order ≠ [])
    (hhit : plan sid < validF sid)
    (hbrk : ¬(assigned + 1 < target ∧
      order.all (fun s => decide (validF s ≤ Function.update plan sid (plan sid + 1) s)) = true)) :
    rrLoop order validF (fuel + 1) plan idx assigned target =
      rrLoop order validF fuel (Function.update plan sid (plan sid + 1)) (idx + 1)
        (assigned + 1) target := by
  simp only [rrLoop]
  rw [hsid, if_pos hc, if_pos hhit, if_neg hbrk]

theorem rrLoop_succ_miss_stop (order : List String) (validF : String → Nat)
    (fuel : Nat) (plan : String → Nat) (idx assigned target : Nat) (sid : String)
    (hsid : order.getD (idx % order.length) "" = sid)
    (hc : assigned < target ∧ order ≠ [])
    (hhit : ¬(plan sid < validF sid))
    (hbrk : assigned < target ∧
      order.all (fun s => decide (validF s ≤ plan s)) = true) :
    rrLoop order validF (fuel + 1) plan idx assigned target = (plan, assigned) := by
  simp only [rrLoop]
  rw [hsid, if_pos hc, if_neg hhit, if_pos hbrk]

theorem rrLoop_succ_miss_go (order : List String) (validF : String → Nat)
    (fuel : Nat) (plan : String → Nat) (idx assigned target : Nat) (sid : String)
    (hsid : order.getD (idx % order.length) "" = sid)
    (hc : assigned < target ∧ order ≠ [])
    (hhit : ¬(plan sid < validF sid))
    (hbrk : ¬(assigned < target ∧
      order.all (fun s => decide (validF s ≤ plan s)) = true)) :
    rrLoop order validF (fuel + 1) plan idx assigned target =
      rrLoop order validF fuel plan (idx + 1) assigned target := by
  simp only [rrLoop]
  rw [hsid, if_pos hc, if_neg hhit, if_neg hbrk]

theorem rrLoop_spec (order : List String) (validF : String → Nat) (hnod : order.Nodup) :
    ∀ (fuel : Nat) (plan : String → Nat) (idx assigned target : Nat),
      assigned ≤ target →
      (∀ s, s ∉ order → (rrLoop order validF fuel plan idx assigned target).1 s = plan s) ∧
      (∀ s, (rrLoop order validF fuel plan idx assigned target).1 s ≤
        max (plan s) (validF s)) ∧
      (planSum order (rrLoop order validF fuel plan idx assigned target).1 + assigned =
        planSum order plan + (rrLoop order validF fuel plan idx assigned target).2) ∧
      (rrLoop order validF fuel plan idx assigned target).2 ≤ target := by
  intro fuel
  induction fuel with
  | zero =>
    intro plan idx assigned target hat
    exact ⟨fun _ _ => rfl, fun s => le_max_left _ _, rfl, hat⟩
  | succ fuel ih =>
    intro plan idx assigned target hat
    by_cases hc : assigned < target ∧ order ≠ []
    · have hL : 0 < order.length := List.length_pos.mpr hc.2
      generalize hsid : order.getD (idx % order.length) "" = sid
      have hmem : sid ∈ order := by
        rw [← hsid]
        exact getD_mem order _ (Nat.mod_lt _ hL)
      by_cases hhit : plan sid < validF sid
      · by_cases hbrk : assigned + 1 < target ∧
          order.all (fun s => decide (validF s ≤ Function.update plan sid (plan sid + 1) s)) = true
        · rw [rrLoop_succ_hit_stop order validF fuel plan idx assigned target sid hsid hc
            hhit hbrk]
          refine ⟨?_, ?_, ?_, ?_⟩
          · intro s hs
            have hne : s ≠ sid := by
              intro hh
              apply hs
              rw [hh]
              exact hmem
            exact Function.update_noteq hne _ plan
          · intro s
            show Function.update plan sid (plan sid + 1) s ≤ max (plan s) (validF s)
            by_cases hse : s = sid
            · subst hse
              rw [Function.update_same]
              omega
            · rw [Function.update_noteq hse]
              exact le_max_left _ _
          · show planSum order (Function.update plan sid (plan sid + 1)) + assigned =
              planSum order plan + (assigned + 1)
            rw [planSum_update_succ order plan sid hnod hmem]
            omega
          · show assigned + 1 ≤ target
            omega
        · rw [rrLoop_succ_hit_go order validF fuel plan idx assigned target sid hsid hc
            hhit hbrk]
          obtain ⟨ih1, ih2, ih3, ih4⟩ :=
            ih (Function.update plan sid (plan sid + 1)) (idx + 1) (assigned + 1) target
              (by omega)
          refine ⟨?_, ?_, ?_, ih4⟩
          · intro s hs
            rw [ih1 s hs]
            have hne : s ≠ sid := by
              intro hh
              apply hs
              rw [hh]
              exact hmem
            exact Function.update_noteq hne _ plan
          · intro s
            refine le_trans (ih2 s) ?_
            by_cases hse : s = sid
            · subst hse
              rw [Function.update_same]
              omega
            · rw [Function.update_noteq hse]
          · rw [planSum_update_succ order plan sid hnod hmem] at ih3
            omega
      · by_cases hbrk : assigned < target ∧
          order.all (fun s => decide (validF s ≤ plan s)) = true
        · rw [rrLoop_succ_miss_stop order validF fuel plan idx assigned target sid hsid hc
            hhit hbrk]
          exact ⟨fun _ _ => rfl, fun s => le_max_left _ _, rfl, hat⟩
        · rw [rrLoop_succ_miss_go order validF fuel plan idx assigned target sid hsid hc
            hhit hbrk]
          exact ih plan (idx + 1) assigned target hat
    · rw [rrLoop_succ_stop order validF fuel plan idx assigned target hc]
      exact ⟨fun _ _ => rfl, fun s => le_max_left _ _, rfl, hat⟩

theorem adjustFill_succ_stop (expandable : List String) (validF : String → Nat)
    (fuel : Nat) (plan : String → Nat) (i diff : Nat)
    (h : ¬(0 < diff ∧ expandable ≠ [])) :
    adjustFill expandable validF (fuel + 1) plan i diff = plan := by
  simp only [adjustFill]
  rw [if_neg h]

theorem adjustFill_succ_hit_all (expandable : List String) (validF : String → Nat)
    (fuel : Nat) (plan : String → Nat) (i diff : Nat) (sid : String)
    (hsid : expandable.getD (i % expandable.length) "" = sid)
    (hc : 0 < diff ∧ expandable ≠ [])
    (hhit : plan sid < validF sid)
    (hall : expandable.all
      (fun s => decide (validF s ≤ Function.update plan sid (plan sid + 1) s)) = true) :
    adjustFill expandable validF (fuel + 1) plan i diff =
      Function.update plan sid (plan sid + 1) := by
  simp only [adjustFill]
  rw [hsid, if_pos hc, if_pos hhit, if_pos hhit, if_pos hall]

theorem adjustFill_succ_hit_go (expandable : List String) (validF : String → Nat)
    (fuel : Nat) (plan : String → Nat) (i diff : Nat) (sid : String)
    (hsid : expandable.getD (i % expandable.length) "" = sid)
    (hc : 0 < diff ∧ expandable ≠ [])
    (hhit : plan sid < validF sid)
    (hall : ¬(expandable.all
      (fun s => decide (validF s ≤ Function.update plan sid (plan sid + 1) s)) = true)) :
    adjustFill expandable validF (fuel + 1) plan i diff =
      adjustFill expandable validF fuel (Function.update plan sid (plan sid + 1))
        (i + 1) (diff - 1) := by
  simp only [adjustFill]
  rw [hsid, if_pos hc, if_pos hhit, if_pos hhit, if_neg hall]

theorem adjustFill_succ_miss_go (expandable : List String) (validF : String → Nat)
    (fuel : Nat) (plan : String → Nat) (i diff : Nat) (sid : String)
    (hsid : expandable.getD (i % expandable.length) "" = sid)
    (hc : 0 < diff ∧ expandable ≠ [])
    (hhit : ¬(plan sid < validF sid))
    (hall : ¬(expandable.all (fun s => decide (validF s ≤ plan s)) = true)) :
    adjustFill expandable validF (fuel + 1) plan i diff =
      adjustFill expandable validF fuel plan (i + 1) diff := by
  simp only [adjustFill]
  rw [hsid, if_pos hc, if_neg hhit, if_neg hhit, if_neg hall]

theorem adjustFill_miss_run (expandable : List String) (validF : String → Nat) :
    ∀ (j : Nat) (fuel : Nat) (plan : String → Nat) (i diff : Nat),
      0 < diff → expandable ≠ [] →
      (∃ s ∈ expandable, plan s < validF s) →
      (∀ k, k < j → validF (expandable.getD ((i + k) % expandable.length) "") ≤
        plan (expandable.getD ((i + k) % expandable.length) "")) →
      adjustFill expandable validF (fuel + j) plan i diff =
        adjustFill expandable validF fuel plan (i + j) diff := by
  intro j
  induction j with
  | zero =>
    intro fuel plan i diff _ _ _ _
    rfl
  | succ j ih =>
    intro fuel plan i diff hd hne hex hmiss
    have hm0 : validF (expandable.getD (i % expandable.length) "") ≤
        plan (expandable.getD (i % expandable.length) "") := by
      have := hmiss 0 (Nat.succ_pos j)
      simpa using this
    have hallf := all_sat_false_of_headroom expandable validF plan hex
    have h1 : adjustFill expandable validF (fuel + j + 1) plan i diff =
        adjustFill expandable validF (fuel + j) plan (i + 1) diff :=
      adjustFill_succ_miss_go expandable validF (fuel + j) plan i diff
        (expandable.getD (i % expandable.length) "") rfl ⟨hd, hne⟩
        (not_lt.mpr hm0) hallf
    have h2 := ih fuel plan (i + 1) diff hd hne hex (by
      intro k hk
      have hstep := hmiss (k + 1) (by omega)
      have heq : i + (k + 1) = i + 1 + k := by omega
      rw [heq] at hstep
      exact hstep)
    show adjustFill expandable validF (fuel + j + 1) plan i diff =
      adjustFill expandable validF fuel plan (i + (j + 1)) diff
    rw [h1, h2, show i + 1 + j = i + (j + 1) from by omega]

theorem adjustFill_spec (expandable : List String) (validF : String → Nat)
    (hnodE : expandable.Nodup) :
    ∀ (diff : Nat) (fuel : Nat) (plan : String → Nat) (i : Nat),
      diff ≤ capSum expandable validF plan →
      (∀ s ∈ expandable, plan s ≤ validF s) →
      diff * (expandable.length + 1) + expandable.length + 1 ≤ fuel →
      (∀ s, s ∉ expandable → adjustFill expandable validF fuel plan i diff s = plan s) ∧
      (∀ s ∈ expandable, adjustFill expandable validF fuel plan i diff s ≤ validF s) ∧
      (∀ order : List String, order.Nodup → (∀ s ∈ expandable, s ∈ order) →
        planSum order (adjustFill expandable validF fuel plan i diff) =
          planSum order plan + diff) := by
  intro diff
  induction diff with
  | zero =>
    intro fuel plan i _ hb hfuel
    obtain ⟨f, hf⟩ : ∃ f, fuel = f + 1 := ⟨fuel - 1, by omega⟩
    subst hf
    rw [adjustFill_succ_stop expandable validF f plan i 0 (by simp)]
    exact ⟨fun _ _ => rfl, hb, fun order _ _ => rfl⟩
  | succ d ih =>
    intro fuel plan i hcap hb hfuel
    have hcap0 : 0 < capSum expandable validF plan := by omega
    obtain ⟨s0, hs0, hh0⟩ := capSum_pos_exists expandable validF plan hcap0
    have hne : expandable ≠ [] := List.ne_nil_of_mem hs0
    have hLpos : 0 < expandable.length := List.length_pos.mpr hne
    have hex : ∃ s ∈ expandable, plan s < validF s := ⟨s0, hs0, hh0⟩
    obtain ⟨j0, hj0L, hj0P⟩ := exists_hit_offset expandable validF plan i hcap0
    have hPex : ∃ j, plan (expandable.getD ((i + j) % expandable.length) "") <
        validF (expandable.getD ((i + j) % expandable.length) "") := ⟨j0, hj0P⟩
    obtain ⟨jm, hjmle, hjmP, hmiss⟩ : ∃ jm, jm ≤ j0 ∧
        (plan (expandable.getD ((i + jm) % expandable.length) "") <
          validF (expandable.getD ((i + jm) % expandable.length) "")) ∧
        ∀ k, k < jm → ¬(plan (expandable.getD ((i + k) % expandable.length) "") <
          validF (expandable.getD ((i + k) % expandable.length) "")) :=
      ⟨Nat.find hPex, Nat.find_min' hPex hj0P, Nat.find_spec hPex,
        fun k hk => Nat.find_min hPex hk⟩
    have hjmL : jm < expandable.length := lt_of_le_of_lt hjmle hj0L
    have hmiss2 : ∀ k, k < jm →
        validF (expandable.getD ((i + k) % expandable.length) "") ≤
          plan (expandable.getD ((i + k) % expandable.length) "") :=
      fun k hk => not_lt.mp (hmiss k hk)
    have hfe : fuel = (fuel - jm) + jm := by omega
    have hrun := adjustFill_miss_run expandable validF jm (fuel - jm) plan i (d + 1)
      (Nat.succ_pos d) hne hex hmiss2
    rw [hfe, hrun]
    obtain ⟨f, hf⟩ : ∃ f, fuel - jm = f + 1 := ⟨fuel - jm - 1, by omega⟩
    rw [hf]
    obtain ⟨sid, hsid⟩ : ∃ sid, expandable.getD ((i + jm) % expandable.length) "" = sid :=
      ⟨_, rfl⟩
    rw [hsid] at hjmP
    have hsidmem : sid ∈ expandable := by
      rw [← hsid]
      exact getD_mem _ _ (Nat.mod_lt _ hLpos)
    have hcap1 : capSum expandable validF (Function.update plan sid (plan sid + 1)) + 1 =
        capSum expandable validF plan :=
      capSum_update expandable validF plan sid hnodE hsidmem hjmP
    by_cases hall : expandable.all
        (fun s => decide (validF s ≤ Function.update plan sid (plan sid + 1) s)) = true
    · rw [adjustFill_succ_hit_all expandable validF f plan (i + jm) (d + 1) sid hsid
        ⟨Nat.succ_pos d, hne⟩ hjmP hall]
      have hsat : capSum expandable validF (Function.update plan sid (plan sid + 1)) = 0 := by
        unfold capSum
        rw [List.sum_eq_zero]
        intro x hx
        rcases List.mem_map.mp hx with ⟨t, ht, hte⟩
        have := of_decide_eq_true (List.all_eq_true.mp hall t ht)
        omega
      have hd0 : d = 0 := by omega
      subst hd0
      refine ⟨?_, ?_, ?_⟩
      · intro s hs
        have hne2 : s ≠ sid := by
          intro hh
          apply hs
          rw [hh]
          exact hsidmem
        exact Function.update_noteq hne2 _ plan
      · intro s hsmem
        by_cases hse : s = sid
        · subst hse
          rw [Function.update_same]
          omega
        · rw [Function.update_noteq hse]
          exact hb s hsmem
      · intro order hnodO hsub
        rw [planSum_update_succ order plan sid hnodO (hsub sid hsidmem)]
    · rw [adjustFill_succ_hit_go expandable validF f plan (i + jm) (d + 1) sid hsid
        ⟨Nat.succ_pos d, hne⟩ hjmP hall]
      simp only [Nat.add_sub_cancel]
      have hb1 : ∀ s ∈ expandable, Function.update plan sid (plan sid + 1) s ≤ validF s := by
        intro s hsmem
        by_cases hse : s = sid
        · subst hse
          rw [Function.update_same]
          omega
        · rw [Function.update_noteq hse]
          exact hb s hsmem
      have hfuel1 : d * (expandable.length + 1) + expandable.length + 1 ≤ f := by
        have hmul : (d + 1) * (expandable.length + 1) =
            d * (expandable.length + 1) + (expandable.length + 1) := by ring
        omega
      obtain ⟨ih1, ih2, ih3⟩ := ih f (Function.update plan sid (plan sid + 1)) (i + jm + 1)
        (by omega) hb1 hfuel1
      refine ⟨?_, ?_, ?_⟩
      · intro s hs
        rw [ih1 s hs]
        have hne2 : s ≠ sid := by
          intro hh
          apply hs
          rw [hh]
          exact hsidmem
        exact Function.update_noteq hne2 _ plan
      · exact ih2
      · intro order hnodO hsub
        rw [ih3 order hnodO hsub, planSum_update_succ order plan sid hnodO (hsub sid hsidmem)]
        omega

theorem capSum_filter (order : List String) (validF plan : String → Nat)
    (hb : ∀ s ∈ order, plan s ≤ validF s) :
    capSum (order.filter fun s => decide (plan s < validF s)) validF plan =
      capSum order validF plan := by
  induction order with
  | nil => rfl
  | cons a rest ih =>
    have hrest := ih fun s hs => hb s (List.mem_cons_of_mem _ hs)
    by_cases hh : plan a < validF a
    · rw [List.filter_cons_of_pos (by simpa using hh)]
      simp only [capSum, List.map_cons, List.sum_cons] at *
      omega
    · rw [List.filter_cons_of_neg (by simpa using hh)]
      simp only [capSum, List.map_cons, List.sum_cons] at *
      have hz : validF a - plan a = 0 := by omega
      omega

theorem alKeys_map_chargeOf_sum (valid : List (String × Nat))
    (hnod : (alKeys valid).Nodup) :
    ((alKeys valid).map (chargeOf valid)).sum = (valid.map (·.2)).sum := by
  induction valid with
  | nil => rfl
  | cons p rest ih =>
    have hnod2 : (alKeys rest).Nodup ∧ p.1 ∉ alKeys rest := by
      have := hnod
      simp only [alKeys, List.map_cons, List.nodup_cons] at this
      exact ⟨this.2, this.1⟩
    have hhead : chargeOf (p :: rest) p.1 = p.2 := chargeOf_mem (p :: rest) p hnod (by simp)
    have htail : (alKeys rest).map (chargeOf (p :: rest)) =
        (alKeys rest).map (chargeOf rest) := by
      refine List.map_congr_left ?_
      intro s hs
      have hne : ¬(p.1 = s) := by
        intro hh
        apply hnod2.2
        rw [hh]
        exact hs
      simp only [chargeOf, alGet]
      rw [if_neg hne]
    calc ((alKeys (p :: rest)).map (chargeOf (p :: rest))).sum
        = chargeOf (p :: rest) p.1 + ((alKeys rest).map (chargeOf (p :: rest))).sum := by
          simp only [alKeys, List.map_cons, List.sum_cons]
      _ = p.2 + ((alKeys rest).map (chargeOf rest)).sum := by rw [hhead, htail]
      _ = p.2 + (rest.map (·.2)).sum := by rw [ih hnod2.1]
      _ = ((p :: rest).map (·.2)).sum := by simp

theorem planAdjust_spec (valid : List (String × Nat)) (target : Nat)
    (plan1 : String → Nat)
    (hnodv : (alKeys valid).Nodup)
    (hout1 : ∀ s, s ∉ alKeys valid → plan1 s = 0)
    (hb1 : ∀ s, plan1 s ≤ chargeOf valid s)
    (hsum1 : planSum (alKeys valid) plan1 ≤ target)
    (hcap : target ≤ (valid.map (·.2)).sum) :
    (∀ s, s ∉ alKeys valid → planAdjust valid target plan1 s = 0) ∧
    (∀ s, planAdjust valid target plan1 s ≤ chargeOf valid s) ∧
    planSum (alKeys valid) (planAdjust valid target plan1) = target := by
  have horder : ((alKeys valid).map (chargeOf valid)).sum = (valid.map (·.2)).sum :=
    alKeys_map_chargeOf_sum valid hnodv
  have hPA : planAdjust valid target plan1 =
      (if planSum (alKeys valid) plan1 < target then
        adjustFill ((alKeys valid).filter fun s => decide (plan1 s < chargeOf valid s))
          (chargeOf valid)
          ((target - planSum (alKeys valid) plan1 + 1) * ((alKeys valid).length + 1) +
            (alKeys valid).length + 1)
          plan1 0 (target - planSum (alKeys valid) plan1)
      else plan1) := rfl
  by_cases hlt : planSum (alKeys valid) plan1 < target
  · rw [hPA, if_pos hlt]
    have hnodE : ((alKeys valid).filter fun s => decide (plan1 s < chargeOf valid s)).Nodup :=
      hnodv.filter _
    have hsubE : ∀ s ∈ (alKeys valid).filter fun s => decide (plan1 s < chargeOf valid s),
        s ∈ alKeys valid := fun s hs => (List.mem_filter.mp hs).1
    have hcapE : capSum ((alKeys valid).filter fun s => decide (plan1 s < chargeOf valid s))
        (chargeOf valid) plan1 = capSum (alKeys valid) (chargeOf valid) plan1 :=
      capSum_filter (alKeys valid) (chargeOf valid) plan1 (fun s _ => hb1 s)
    have hcapPS : capSum (alKeys valid) (chargeOf valid) plan1 +
        planSum (alKeys valid) plan1 = ((alKeys valid).map (chargeOf valid)).sum :=
      capSum_plus_planSum (alKeys valid) (chargeOf valid) plan1 hb1
    have hdcap : target - planSum (alKeys valid) plan1 ≤
        capSum ((alKeys valid).filter fun s => decide (plan1 s < chargeOf valid s))
          (chargeOf valid) plan1 := by
      rw [hcapE]
      omega
    have hbE : ∀ s ∈ (alKeys valid).filter fun s => decide (plan1 s < chargeOf valid s),
        plan1 s ≤ chargeOf valid s := fun s _ => hb1 s
    have hfuelE : (target - planSum (alKeys valid) plan1) *
        (((alKeys valid).filter fun s => decide (plan1 s < chargeOf valid s)).length + 1) +
        ((alKeys valid).filter fun s => decide (plan1 s < chargeOf valid s)).length + 1 ≤
        (target - planSum (alKeys valid) plan1 + 1) * ((alKeys valid).length + 1) +
          (alKeys valid).length + 1 := by
      have hle : ((alKeys valid).filter fun s => decide (plan1 s < chargeOf valid s)).length ≤
          (alKeys valid).length := List.length_filter_le _ _
      have h1 : (target - planSum (alKeys valid) plan1) *
          (((alKeys valid).filter fun s => decide (plan1 s < chargeOf valid s)).length + 1) ≤
          (target - planSum (alKeys valid) plan1) * ((alKeys valid).length + 1) :=
        Nat.mul_le_mul_left _ (by omega)
      have h2 : (target - planSum (alKeys valid) plan1 + 1) * ((alKeys valid).length + 1) =
          (target - planSum (alKeys valid) plan1) * ((alKeys valid).length + 1) +
            ((alKeys valid).length + 1) := by ring
      omega
    obtain ⟨a1, a2, a3⟩ := adjustFill_spec
      ((alKeys valid).filter fun s => decide (plan1 s < chargeOf valid s))
      (chargeOf valid) hnodE (target - planSum (alKeys valid) plan1) _ plan1 0
      hdcap hbE hfuelE
    refine ⟨?_, ?_, ?_⟩
    · intro s hs
      have hsE : s ∉ (alKeys valid).filter fun s => decide (plan1 s < chargeOf valid s) :=
        fun hmem => hs (hsubE s hmem)
      rw [a1 s hsE]
      exact hout1 s hs
    · intro s
      by_cases hmem : s ∈ (alKeys valid).filter fun s => decide (plan1 s < chargeOf valid s)
      · exact a2 s hmem
      · rw [a1 s hmem]
        exact hb1 s
    · rw [a3 (alKeys valid) hnodv hsubE]
      omega
  · rw [hPA, if_neg hlt]
    exact ⟨hout1, hb1, by omega⟩

theorem balancedStep_fold (totalCh target : Nat) :
    ∀ (l : List (String × Nat)) (acc : (String → Nat) × Nat × List (String × Nat)),
      (alKeys l).Nodup → (∀ p ∈ l, acc.1 p.1 = 0) →
      (∀ s, s ∉ alKeys l →
        (l.foldl (balancedStep totalCh target) acc).1 s = acc.1 s) ∧
      (∀ p ∈ l, (l.foldl (balancedStep totalCh target) acc).1 p.1 =
        min (p.2 * target / totalCh) p.2) ∧
      ((l.foldl (balancedStep totalCh target) acc).2.1 =
        acc.2.1 + (l.map fun p => min (p.2 * target / totalCh) p.2).sum) ∧
      (alKeys (l.foldl (balancedStep totalCh target) acc).2.2 =
        alKeys acc.2.2 ++ alKeys l) := by
  intro l
  induction l with
  | nil =>
    intro acc _ _
    refine ⟨fun _ _ => rfl, fun p hp => absurd hp (List.not_mem_nil p), by simp, ?_⟩
    simp [alKeys]
  | cons q rest ih =>
    intro acc hnod hzero
    have hnod2 : (alKeys rest).Nodup ∧ q.1 ∉ alKeys rest := by
      have := hnod
      simp only [alKeys, List.map_cons, List.nodup_cons] at this
      exact ⟨this.2, this.1⟩
    have hacc1 : (balancedStep totalCh target acc q).1 =
        Function.update acc.1 q.1 (min (q.2 * target / totalCh) q.2) := rfl
    have hacc21 : (balancedStep totalCh target acc q).2.1 =
        acc.2.1 + min (q.2 * target / totalCh) q.2 := rfl
    have hacc22 : (balancedStep totalCh target acc q).2.2 =
        acc.2.2 ++ [(q.1, q.2 * target % totalCh)] := rfl
    have hzero2 : ∀ p ∈ rest, (balancedStep totalCh target acc q).1 p.1 = 0 := by
      intro p hp
      rw [hacc1]
      have hne : p.1 ≠ q.1 := by
        intro hh
        apply hnod2.2
        rw [← hh]
        exact mem_alKeys_of_mem rest p hp
      rw [Function.update_noteq hne]
      exact hzero p (List.mem_cons_of_mem _ hp)
    obtain ⟨ih1, ih2, ih3, ih4⟩ := ih (balancedStep totalCh target acc q) hnod2.1 hzero2
    have hstep : (q :: rest).foldl (balancedStep totalCh target) acc =
        rest.foldl (balancedStep totalCh target) (balancedStep totalCh target acc q) := rfl
    rw [hstep]
    refine ⟨?_, ?_, ?_, ?_⟩
    · intro s hs
      have hsr : s ∉ alKeys rest := fun hh => hs ((mem_alKeys_cons q rest s).mpr (Or.inr hh))
      rw [ih1 s hsr, hacc1]
      have hne : s ≠ q.1 := fun hh => hs ((mem_alKeys_cons q rest s).mpr (Or.inl hh))
      rw [Function.update_noteq hne]
    · intro p hp
      rcases List.mem_cons.mp hp with h | h
      · subst h
        rw [ih1 p.1 hnod2.2, hacc1, Function.update_same]
      · exact ih2 p h
    · rw [ih3, hacc21]
      simp only [List.map_cons, List.sum_cons]
      omega
    · rw [ih4, hacc22]
      simp [alKeys]

theorem mul_sum_min_base_le (C t : Nat) :
    ∀ l : List (String × Nat),
      C * (l.map fun p => min (p.2 * t / C) p.2).sum ≤ (l.map (·.2)).sum * t := by
  intro l
  induction l with
  | nil => simp
  | cons p rest ih =>
    simp only [List.map_cons, List.sum_cons]
    have h1 : C * (p.2 * t / C) ≤ p.2 * t := by
      have := Nat.div_add_mod (p.2 * t) C
      omega
    have h2 : C * min (p.2 * t / C) p.2 ≤ C * (p.2 * t / C) :=
      Nat.mul_le_mul_left C (Nat.min_le_left _ _)
    have hexp : (p.2 + (rest.map (·.2)).sum) * t = p.2 * t + (rest.map (·.2)).sum * t := by
      ring
    rw [Nat.mul_add, hexp]
    omega

theorem balancedFill_spec (validF : String → Nat) :
    ∀ (l : List (String × Nat)) (plan : String → Nat) (assigned target : Nat),
      (∀ s, (∀ p ∈ l, p.1 ≠ s) → (balancedFill validF l plan assigned target).1 s = plan s) ∧
      (∀ s, (balancedFill validF l plan assigned target).1 s ≤ max (plan s) (validF s)) ∧
      (∀ order : List String, order.Nodup → (∀ p ∈ l, p.1 ∈ order) →
        planSum order (balancedFill validF l plan assigned target).1 + assigned =
          planSum order plan + (balancedFill validF l plan assigned target).2) ∧
      ((balancedFill validF l plan assigned target).2 ≤ max assigned target) := by
  intro l
  induction l with
  | nil =>
    intro plan assigned target
    exact ⟨fun _ _ => rfl, fun s => le_max_left _ _, fun _ _ _ => rfl, le_max_left _ _⟩
  | cons q rest ih =>
    intro plan assigned target
    obtain ⟨sid, r⟩ := q
    by_cases ht : target ≤ assigned
    · have heq : balancedFill validF ((sid, r) :: rest) plan assigned target =
          (plan, assigned) := by
        simp only [balancedFill]
        rw [if_pos ht]
      rw [heq]
      exact ⟨fun _ _ => rfl, fun s => le_max_left _ _, fun _ _ _ => rfl, le_max_left _ _⟩
    · by_cases hh : plan sid < validF sid
      · have heq : balancedFill validF ((sid, r) :: rest) plan assigned target =
            balancedFill validF rest (Function.update plan sid (plan sid + 1))
              (assigned + 1) target := by
          simp only [balancedFill]
          rw [if_neg ht, if_pos hh]
        rw [heq]
        obtain ⟨ih1, ih2, ih3, ih4⟩ :=
          ih (Function.update plan sid (plan sid + 1)) (assigned + 1) target
        refine ⟨?_, ?_, ?_, ?_⟩
        · intro s hs
          rw [ih1 s (fun p hp => hs p (List.mem_cons_of_mem _ hp))]
          have hne : s ≠ sid := Ne.symm (hs (sid, r) (List.mem_cons_self _ _))
          rw [Function.update_noteq hne]
        · intro s
          refine le_trans (ih2 s) ?_
          by_cases hse : s = sid
          · subst hse
            rw [Function.update_same]
            omega
          · rw [Function.update_noteq hse]
        · intro order hnodO hsub
          have hsidO : sid ∈ order := hsub (sid, r) (List.mem_cons_self _ _)
          have hcons := ih3 order hnodO (fun p hp => hsub p (List.mem_cons_of_mem _ hp))
          rw [planSum_update_succ order plan sid hnodO hsidO] at hcons
          omega
        · have := ih4
          omega
      · have heq : balancedFill validF ((sid, r) :: rest) plan assigned target =
            balancedFill validF rest plan assigned target := by
          simp only [balancedFill]
          rw [if_neg ht, if_neg hh]
        rw [heq]
        obtain ⟨ih1, ih2, ih3, ih4⟩ := ih plan assigned target
        exact ⟨fun s hs => ih1 s (fun p hp => hs p (List.mem_cons_of_mem _ hp)), ih2,
          fun order hnodO hsub =>
            ih3 order hnodO (fun p hp => hsub p (List.mem_cons_of_mem _ hp)), ih4⟩

theorem clampPlan_id (order : List String) (validF : String → Nat) :
    ∀ plan : String → Nat, (∀ s ∈ order, plan s ≤ validF s) →
      clampPlan order validF plan = plan := by
  induction order with
  | nil =>
    intro plan _
    rfl
  | cons a rest ih =>
    intro plan hb
    have hstep : clampPlan (a :: rest) validF plan = clampPlan rest validF plan := by
      simp only [clampPlan, List.foldl_cons]
      rw [if_neg (not_lt.mpr (hb a (List.mem_cons_self a rest)))]
    rw [hstep]
    exact ih plan (fun s hs => hb s (List.mem_cons_of_mem _ hs))

theorem planSum_zero_fun (order : List String) : planSum order (fun _ => 0) = 0 := by
  unfold planSum
  rw [List.sum_eq_zero]
  intro x hx
  rcases List.mem_map.mp hx with ⟨s, _, h⟩
  rw [← h]

theorem planStrategy_spec (strat : String) (valid : List (String × Nat)) (target : Nat)
    (hnodv : (alKeys valid).Nodup)
    (hcap : target ≤ (valid.map (·.2)).sum) :
    (∀ s, s ∉ alKeys valid → planStrategy strat valid target s = 0) ∧
    (∀ s, planStrategy strat valid target s ≤ chargeOf valid s) ∧
    planSum (alKeys valid) (planStrategy strat valid target) ≤ target := by
  by_cases hrr : strat = "round_robin"
  · have hps : planStrategy strat valid target =
        (rrLoop (alKeys valid) (chargeOf valid) (rrFuel target (alKeys valid))
          (fun _ => 0) 0 0 target).1 := by
      simp only [planStrategy]
      rw [if_pos hrr]
    rw [hps]
    obtain ⟨r1, r2, r3, r4⟩ := rrLoop_spec (alKeys valid) (chargeOf valid) hnodv
      (rrFuel target (alKeys valid)) (fun _ => 0) 0 0 target (Nat.zero_le _)
    refine ⟨?_, ?_, ?_⟩
    · intro s hs
      rw [r1 s hs]
    · intro s
      have h := r2 s
      simpa using h
    · rw [planSum_zero_fun] at r3
      omega
  · by_cases hbal : strat = "balanced"
    · obtain ⟨C, hC⟩ : ∃ C,
          (if (valid.map (·.2)).sum = 0 then 1 else (valid.map (·.2)).sum) = C := ⟨_, rfl⟩
      obtain ⟨fl, hfl⟩ : ∃ fl,
          valid.foldl (balancedStep C target) (fun _ => 0, 0, []) = fl := ⟨_, rfl⟩
      have hps : planStrategy strat valid target =
          clampPlan (alKeys valid) (chargeOf valid)
            (if fl.2.1 < target then
              balancedFill (chargeOf valid)
                (fl.2.2.mergeSort fun a b => decide (b.2 ≤ a.2)) fl.1 fl.2.1 target
            else (fl.1, fl.2.1)).1 := by
        simp only [planStrategy, balancedBase]
        rw [if_neg hrr, if_pos hbal, hC, hfl]
      obtain ⟨f1, f2, f3, f4⟩ := balancedStep_fold C target valid (fun _ => 0, 0, [])
        hnodv (fun p _ => rfl)
      rw [hfl] at f1 f2 f3 f4
      simp only [] at f1 f3
      simp only [alKeys, List.map_nil, List.nil_append] at f4
      have hCpos : 0 < C := by
        rw [← hC]
        split <;> omega
      have hsC : (valid.map (·.2)).sum ≤ C := by
        rw [← hC]
        split <;> omega
      have hminsum : (valid.map fun p => min (p.2 * target / C) p.2).sum ≤ target := by
        have hmul := mul_sum_min_base_le C target valid
        have hstep : (valid.map (·.2)).sum * target ≤ C * target :=
          mul_le_mul_right' hsC target
        exact Nat.le_of_mul_le_mul_left (le_trans hmul hstep) hCpos
    
      have hfl21 : fl.2.1 ≤ target := by
        rw [f3]
        simpa using hminsum
      have hbfl : ∀ s, fl.1 s ≤ chargeOf valid s := by
        intro s
        by_cases hs : s ∈ alKeys valid
        · simp only [alKeys] at hs
          rcases List.mem_map.mp hs with ⟨p, hp, hpe⟩
          rw [← hpe, f2 p hp, chargeOf_mem valid p hnodv hp]
          exact Nat.min_le_right _ _
        · rw [f1 s hs]
          exact Nat.zero_le _
      have hplanSum_fl : planSum (alKeys valid) fl.1 = fl.2.1 := by
        unfold planSum
        have hmm : (alKeys valid).map fl.1 =
            valid.map (fun p => min (p.2 * target / C) p.2) := by
          simp only [alKeys, List.map_map]
          refine List.map_congr_left ?_
          intro p hp
          exact f2 p hp
        rw [hmm]
        omega
      rw [hps]
      by_cases hfill : fl.2.1 < target
      · rw [if_pos hfill]
        obtain ⟨b1, b2, b3, b4⟩ := balancedFill_spec (chargeOf valid)
          (fl.2.2.mergeSort fun a b => decide (b.2 ≤ a.2)) fl.1 fl.2.1 target
        have hsortmem : ∀ p ∈ fl.2.2.mergeSort fun a b => decide (b.2 ≤ a.2),
            p.1 ∈ alKeys valid := by
          intro p hp
          have hmm := mem_alKeys_of_mem _ p (List.mem_mergeSort.mp hp)
          simp only [alKeys] at hmm ⊢
          rw [f4] at hmm
          exact hmm
        have hbfilled : ∀ s, (balancedFill (chargeOf valid)
            (fl.2.2.mergeSort fun a b => decide (b.2 ≤ a.2)) fl.1 fl.2.1 target).1 s ≤
            chargeOf valid s := by
          intro s
          have h1 := b2 s
          have h2 := hbfl s
          omega
        have hclamp := clampPlan_id (alKeys valid) (chargeOf valid)
          (balancedFill (chargeOf valid)
            (fl.2.2.mergeSort fun a b => decide (b.2 ≤ a.2)) fl.1 fl.2.1 target).1
          (fun s _ => hbfilled s)
        rw [hclamp]
        refine ⟨?_, hbfilled, ?_⟩
        · intro s hs
          have hnein : ∀ p ∈ fl.2.2.mergeSort fun a b => decide (b.2 ≤ a.2), p.1 ≠ s := by
            intro p hp hpe
            apply hs
            rw [← hpe]
            exact hsortmem p hp
          rw [b1 s hnein]
          exact f1 s hs
        · have hc := b3 (alKeys valid) hnodv hsortmem
          rw [hplanSum_fl] at hc
          omega
      · rw [if_neg hfill]
        have hclamp := clampPlan_id (alKeys valid) (chargeOf valid) fl.1
          (fun s _ => hbfl s)
        refine ⟨?_, ?_, ?_⟩
        · intro s hs
          show clampPlan (alKeys valid) (chargeOf valid) fl.1 s = 0
          rw [hclamp]
          exact f1 s hs
        · intro s
          show clampPlan (alKeys valid) (chargeOf valid) fl.1 s ≤ chargeOf valid s
          rw [hclamp]
          exact hbfl s
        · show planSum (alKeys valid) (clampPlan (alKeys valid) (chargeOf valid) fl.1) ≤
            target
          rw [hclamp]
          omega
    · have hps : planStrategy strat valid target =
          greedyAlloc (valid.mergeSort fun a b => decide (b.2 ≤ a.2)) target
            (fun _ => 0) := by
        simp only [planStrategy]
        rw [if_neg hrr, if_neg hbal]
      rw [hps]
      have hperm : (valid.mergeSort fun a b => decide (b.2 ≤ a.2)).Perm valid :=
        List.mergeSort_perm valid _
      have hkp : (alKeys (valid.mergeSort fun a b => decide (b.2 ≤ a.2))).Perm
          (alKeys valid) := hperm.map Prod.fst
      have hnods : (alKeys (valid.mergeSort fun a b => decide (b.2 ≤ a.2))).Nodup :=
        hkp.nodup_iff.mpr hnodv
      obtain ⟨g1, g2, g3⟩ := greedy_spec (valid.mergeSort fun a b => decide (b.2 ≤ a.2))
        target (fun _ => 0) hnods (fun _ _ => rfl)
      refine ⟨?_, ?_, ?_⟩
      · intro s hs
        have hsn : s ∉ alKeys (valid.mergeSort fun a b => decide (b.2 ≤ a.2)) :=
          fun hh => hs (hkp.mem_iff.mp hh)
        rw [g1 s hsn]
      · intro s
        by_cases hs : s ∈ alKeys valid
        · simp only [alKeys] at hs
          rcases List.mem_map.mp hs with ⟨p, hp, hpe⟩
          rw [← hpe, chargeOf_mem valid p hnodv hp]
          exact g2 p (hperm.mem_iff.mpr hp)
        · have hsn : s ∉ alKeys (valid.mergeSort fun a b => decide (b.2 ≤ a.2)) :=
            fun hh => hs (hkp.mem_iff.mp hh)
          rw [g1 s hsn]
          exact Nat.zero_le _
      · have hms : planSum (alKeys valid)
            (greedyAlloc (valid.mergeSort fun a b => decide (b.2 ≤ a.2)) target
              (fun _ => 0)) =
            ((valid.mergeSort fun a b => decide (b.2 ≤ a.2)).map fun p =>
              greedyAlloc (valid.mergeSort fun a b => decide (b.2 ≤ a.2)) target
                (fun _ => 0) p.1).sum := by
          unfold planSum
          have hmm : (alKeys valid).map
              (greedyAlloc (valid.mergeSort fun a b => decide (b.2 ≤ a.2)) target
                (fun _ => 0)) =
              valid.map (fun p =>
                greedyAlloc (valid.mergeSort fun a b => decide (b.2 ≤ a.2)) target
                  (fun _ => 0) p.1) := by
            simp only [alKeys, List.map_map]
            rfl
          rw [hmm]
          exact ((hperm.map fun p =>
            greedyAlloc (valid.mergeSort fun a b => decide (b.2 ≤ a.2)) target
              (fun _ => 0) p.1).sum_eq).symm
        rw [hms, g3]
        exact Nat.min_le_left _ _

theorem forall2_map_left {α β : Type} (l : List α) (f : α → β)
    {R : β → α → Prop} (h : ∀ a ∈ l, R (f a) a) : List.Forall₂ R (l.map f) l := by
  induction l with
  | nil => exact List.Forall₂.nil
  | cons a rest ih =>
    simp only [List.map_cons]
    exact List.Forall₂.cons (h a (List.mem_cons_self a rest))
      (ih fun x hx => h x (List.mem_cons_of_mem _ hx))

theorem int_sum_map {α : Type} (l : List α) (f : α → Nat) :
    (l.map fun a => ((f a : Nat) : Int)).sum = ((l.map f).sum : Int) := by
  induction l with
  | nil => rfl
  | cons a rest ih =>
    simp only [List.map_cons, List.sum_cons, ih]
    push_cast
    ring

theorem mem_validCharges_of_pos (charges : List (String × Int)) (p : String × Int)
    (hp : p ∈ charges) (hpos : 0 < p.2) :
    (p.1, p.2.toNat) ∈ validCharges charges := by
  unfold validCharges
  exact List.mem_map.mpr ⟨p, List.mem_filter.mpr ⟨hp, by simpa using hpos⟩, rfl⟩

theorem not_mem_validKeys_of_nonpos (charges : List (String × Int)) (p : String × Int)
    (hnod : (alKeys charges).Nodup) (hp : p ∈ charges) (hz : p.2 ≤ 0) :
    p.1 ∉ alKeys (validCharges charges) := by
  intro hmem
  rw [alKeys_validCharges] at hmem
  simp only [alKeys] at hmem
  rcases List.mem_map.mp hmem with ⟨q, hqf, hqe⟩
  rcases List.mem_filter.mp hqf with ⟨hqc, hqpos⟩
  have hqpos2 : 0 < q.2 := of_decide_eq_true hqpos
  have h1 := alGet_eq_of_mem_nodup charges p.1 p.2 hnod hp
  have h2 := alGet_eq_of_mem_nodup charges q.1 q.2 hnod hqc
  rw [hqe] at h2
  rw [h1] at h2
  injection h2 with h3
  omega

/-- C1: for every strategy name (unknown names defaulting to greedy), every
credit map with pairwise-distinct keys and non-negative credits, and every
non-negative round total, the plan returned by
`compute_distribution(strategy, credits, round_total)` has exactly the keys of
the credit map (in order), grants no worker more than its credits, and its
total equals `min(round_total, sum(credits))` (hence is bounded by it, with
equality in particular whenever `round_total ≤ sum(credits)`).  The original
claim quantified over every integer round total; for negative round totals the
code returns the all-zero plan whose total `0` exceeds the negative
`min(round_total, sum(credits))`, so the claim is amended with
`0 ≤ round_total` (see `C1_counterexample`). -/
theorem C1_plan_bounds (strategy : String) (charges : List (String × Int))
    (roundTotal : Int)
    (hnod : (alKeys charges).Nodup)
    (hnn : ∀ p ∈ charges, 0 ≤ p.2)
    (hrt : 0 ≤ roundTotal) :
    List.Forall₂ (fun (q : String × Nat) (c : String × Int) =>
        q.1 = c.1 ∧ (q.2 : Int) ≤ c.2)
      (compute_distribution strategy charges roundTotal) charges ∧
    ((compute_distribution strategy charges roundTotal).map fun q => (q.2 : Int)).sum ≤
      min roundTotal ((charges.map (·.2)).sum) ∧
    (roundTotal ≤ (charges.map (·.2)).sum →
      ((compute_distribution strategy charges roundTotal).map fun q => (q.2 : Int)).sum =
        min roundTotal ((charges.map (·.2)).sum)) := by
  have hSnn : 0 ≤ (charges.map (·.2)).sum := sum_charges_nonneg charges hnn
  by_cases h1 : validCharges charges = [] ∨ roundTotal ≤ 0
  · have hcd : compute_distribution strategy charges roundTotal =
        charges.map fun p => (p.1, 0) := by
      simp only [compute_distribution]
      rw [if_pos h1]
    rw [hcd]
    have hz : ((charges.map fun p => (p.1, (0 : Nat))).map fun q => (q.2 : Int)).sum = 0 := by
      rw [List.map_map]
      apply List.sum_eq_zero
      intro x hx
      rcases List.mem_map.mp hx with ⟨p, _, hpe⟩
      rw [← hpe]
      rfl
    have hforall : List.Forall₂ (fun (q : String × Nat) (c : String × Int) =>
        q.1 = c.1 ∧ (q.2 : Int) ≤ c.2) (charges.map fun p => (p.1, (0 : Nat))) charges :=
      forall2_map_left charges _ (fun p hp => ⟨rfl, by simpa using hnn p hp⟩)
    refine ⟨hforall, ?_, ?_⟩
    · rw [hz]
      rcases h1 with h | h
      · have := sum_charges_zero_of_valid_nil charges hnn h
        omega
      · omega
    · intro hle
      rw [hz]
      rcases h1 with h | h
      · have := sum_charges_zero_of_valid_nil charges hnn h
        omega
      · omega
  · push_neg at h1
    obtain ⟨hvne, hrtpos⟩ := h1
    have hvnod := validCharges_keys_nodup charges hnod
    have hcapInt : ((((validCharges charges).map (·.2)).sum : Nat) : Int) =
        (charges.map (·.2)).sum := by
      rw [← int_sum_map (validCharges charges) (fun p => p.2)]
      exact validCharges_sum charges hnn
    have hcap_pos : 0 < ((validCharges charges).map (·.2)).sum := by
      obtain ⟨q, vs, hqvs⟩ := List.exists_cons_of_ne_nil hvne
      have hq : 0 < q.2 := validCharges_pos charges q (by
        rw [hqvs]
        exact List.mem_cons_self _ _)
      rw [hqvs]
      simp only [List.map_cons, List.sum_cons]
      omega
    have h2 : ¬(min roundTotal ((((validCharges charges).map (·.2)).sum : Nat) : Int) ≤ 0) := by
      omega
    obtain ⟨st, hst⟩ : ∃ st, (if strategy = "" then "greedy" else strategy).toLower = st :=
      ⟨_, rfl⟩
    obtain ⟨T, hTdef⟩ : ∃ T,
        (min roundTotal ((((validCharges charges).map (·.2)).sum : Nat) : Int)).toNat = T :=
      ⟨_, rfl⟩
    have hcd : compute_distribution strategy charges roundTotal =
        charges.map fun p => (p.1, planAdjust (validCharges charges) T
          (planStrategy st (validCharges charges) T) p.1) := by
      simp only [compute_distribution]
      rw [if_neg (by push_neg; exact ⟨hvne, by omega⟩), if_neg h2, hst, hTdef]
    have hTcap : T ≤ ((validCharges charges).map (·.2)).sum := by omega
    have hTint : (T : Int) = min roundTotal ((charges.map (·.2)).sum) := by
      rw [← hcapInt]
      omega
    obtain ⟨s1, s2, s3⟩ := planStrategy_spec st (validCharges charges) T hvnod hTcap
    obtain ⟨a1, a2, a3⟩ := planAdjust_spec (validCharges charges) T
      (planStrategy st (validCharges charges) T) hvnod s1 s2 s3 hTcap
    have hkey : ∀ p ∈ charges,
        ((planAdjust (validCharges charges) T
          (planStrategy st (validCharges charges) T) p.1 : Nat) : Int) ≤ p.2 := by
      intro p hp
      by_cases hpp : 0 < p.2
      · have hpm := mem_validCharges_of_pos charges p hp hpp
        have hb := a2 p.1
        have hco : chargeOf (validCharges charges) p.1 = p.2.toNat := by
          have := chargeOf_mem (validCharges charges) (p.1, p.2.toNat) hvnod hpm
          simpa using this
        rw [hco] at hb
        omega
      · have hzq : p.2 = 0 := le_antisymm (not_lt.mp hpp) (hnn p hp)
        have hnm := not_mem_validKeys_of_nonpos charges p hnod hp (le_of_eq hzq)
        rw [a1 p.1 hnm, hzq]
        simp
    have hforall : List.Forall₂ (fun (q : String × Nat) (c : String × Int) =>
        q.1 = c.1 ∧ (q.2 : Int) ≤ c.2)
        (charges.map fun p => (p.1, planAdjust (validCharges charges) T
          (planStrategy st (validCharges charges) T) p.1)) charges :=
      forall2_map_left charges _ (fun p hp => ⟨rfl, hkey p hp⟩)
    have hzero2 : ∀ p ∈ charges, ¬(0 < p.2) →
        planAdjust (validCharges charges) T
          (planStrategy st (validCharges charges) T) p.1 = 0 := by
      intro p hp hpp
      have hzq : p.2 = 0 := le_antisymm (not_lt.mp hpp) (hnn p hp)
      exact a1 p.1 (not_mem_validKeys_of_nonpos charges p hnod hp (le_of_eq hzq))
    have hsum_nat : (charges.map fun p => planAdjust (validCharges charges) T
        (planStrategy st (validCharges charges) T) p.1).sum = T := by
      rw [plan_sum_transfer charges _ hzero2]
      exact a3
    have hsum_int : ((charges.map fun p => (p.1, planAdjust (validCharges charges) T
        (planStrategy st (validCharges charges) T) p.1)).map fun q => (q.2 : Int)).sum =
        (T : Int) := by
      rw [List.map_map]
      have hcomp : ((fun q : String × Nat => (q.2 : Int)) ∘
          (fun p : String × Int => (p.1, planAdjust (validCharges charges) T
            (planStrategy st (validCharges charges) T) p.1))) =
          fun p : String × Int => ((planAdjust (validCharges charges) T
            (planStrategy st (validCharges charges) T) p.1 : Nat) : Int) := rfl
      rw [hcomp, int_sum_map charges _, hsum_nat]
    rw [hcd]
    refine ⟨hforall, ?_, ?_⟩
    · rw [hsum_int, hTint]
    · intro _
      rw [hsum_int, hTint]

/-- Witness: the C1 theorem applied at strategy "greedy", credits
a ↦ 2, b ↦ 1 and round total 2, with each hypothesis discharged by `decide`. -/
theorem C1_plan_bounds_witness :
    List.Forall₂ (fun (q : String × Nat) (c : String × Int) =>
        q.1 = c.1 ∧ (q.2 : Int) ≤ c.2)
      (compute_distribution "greedy" [("a", 2), ("b", 1)] 2) [("a", 2), ("b", 1)] ∧
    ((compute_distribution "greedy" [("a", 2), ("b", 1)] 2).map fun q => (q.2 : Int)).sum ≤
      min 2 (([(("a" : String), (2 : Int)), ("b", 1)].map (·.2)).sum) ∧
    ((2 : Int) ≤ ([(("a" : String), (2 : Int)), ("b", 1)].map (·.2)).sum →
      ((compute_distribution "greedy" [("a", 2), ("b", 1)] 2).map fun q => (q.2 : Int)).sum =
        min 2 (([(("a" : String), (2 : Int)), ("b", 1)].map (·.2)).sum)) :=
  C1_plan_bounds "greedy" [("a", 2), ("b", 1)] 2 (by decide) (by decide) (by decide)

/-- Counterexample to the unamended C1: with credits a ↦ 1 and the negative
round total -1, the code returns the all-zero plan, whose total 0 is not
bounded by min(-1, 1) = -1. -/
theorem C1_counterexample :
    ¬(((compute_distribution "greedy" [("a", 1)] (-1)).map fun q => (q.2 : Int)).sum ≤
      min (-1) (([(("a" : String), (1 : Int))].map (·.2)).sum)) := by
  decide

/-- C8: in an orchestrator iteration with `spendAllPixelsOnStart = false`, a
non-empty change set, and a positive total of remaining charges that is
strictly below `pixelsPerBatch`, the decision chain stops at the
wait-for-charges branch (`session_orchestrator.py` lines 267-271): it neither
calls `compute_distribution` nor reaches the dispatch path, and sleeps 10 s
before the next iteration. -/
theorem C8_wait_for_charges {γ : Type} (pixelsPerBatch : Int) (strategy : String)
    (changes : List γ) (charges : List (String × Int))
    (hch : changes ≠ [])
    (hpos : 0 < (charges.map (·.2)).sum)
    (hlt : (charges.map (·.2)).sum < pixelsPerBatch) :
    orchestrateIteration false pixelsPerBatch strategy changes charges =
      IterOutcome.waitForCharges := by
  have hne : changes.isEmpty = false := by
    cases changes with
    | nil => exact absurd rfl hch
    | cons a l => rfl
  have h2 : ¬((charges.map (·.2)).sum ≤ 0) := by omega
  have h3 : ¬(min ((charges.map (·.2)).sum) pixelsPerBatch ≤ 0) := by omega
  simp only [orchestrateIteration]
  rw [hne]
  rw [if_neg Bool.false_ne_true]
  rw [if_neg h2]
  rw [if_neg Bool.false_ne_true]
  rw [if_neg h3]
  rw [if_pos ⟨trivial, hlt⟩]

/-- Witness: the C8 theorem applied at pixelsPerBatch 10, one pending change
and a single worker with 3 remaining charges. -/
theorem C8_wait_for_charges_witness :
    orchestrateIteration false 10 "greedy" [(0 : Nat)] [("a", (3 : Int))] =
      IterOutcome.waitForCharges :=
  C8_wait_for_charges 10 "greedy" [0] [("a", 3)] (by decide) (by decide) (by decide)

theorem parseNatUn_natUn (n : Nat) (rest : List Char) :
    parseNatUn (natUn n ++ rest) = some (n, rest) := by
  induction n with
  | zero => rfl
  | succ n ih =>
    have h : natUn (n + 1) ++ rest = 'x' :: (natUn n ++ rest) := by
      simp [natUn, List.replicate_succ]
    rw [h]
    simp only [parseNatUn]
    rw [if_pos trivial, ih]
    rfl

theorem parseChars_block (cs : List Char) (rest : List Char) :
    parseChars cs.length ((cs.flatMap fun c => natUn c.toNat) ++ rest) = some (cs, rest) := by
  induction cs with
  | nil => rfl
  | cons c cr ih =>
    rw [List.flatMap_cons, List.append_assoc]
    show parseChars (cr.length + 1) (natUn c.toNat ++ ((cr.flatMap fun c => natUn c.toNat) ++ rest)) =
      some (c :: cr, rest)
    simp only [parseChars]
    rw [parseNatUn_natUn]
    simp only [Option.bind]
    rw [ih]
    simp only [Option.bind]
    rw [Char.ofNat_toNat]

theorem parseStr_encStr (s : String) (rest : List Char) :
    parseStr (encStr s ++ rest) = some (s, rest) := by
  unfold parseStr encStr
  rw [List.append_assoc, parseNatUn_natUn]
  simp only [Option.bind]
  rw [parseChars_block]

theorem jdepthV_pos (v : JVal) : 0 < jdepthV v := by
  cases v <;> simp [jdepthV]

theorem natUn_length (n : Nat) : (natUn n).length = n + 1 := by
  simp [natUn]

theorem encStr_length (s : String) :
    (encStr s).length =
      s.data.length + 1 + (s.data.flatMap fun c => natUn c.toNat).length := by
  simp [encStr, natUn_length]

theorem jencV_length_pos (v : JVal) : 0 < (jencV v).length := by
  cases v with
  | null => simp [jencV]
  | bool b => cases b <;> simp [jencV]
  | int n => simp [jencV]
  | str s => simp [jencV]
  | arr l => simp [jencV]
  | obj l => simp [jencV]

theorem jdec_jenc : ∀ fuel : Nat,
    (∀ (v : JVal) (rest : List Char), jdepthV v ≤ fuel →
      jdecV fuel (jencV v ++ rest) = some (v, rest)) ∧
    (∀ (l : List JVal) (rest : List Char), jdepthL l ≤ fuel →
      jdecL fuel l.length (jencL l ++ rest) = some (l, rest)) ∧
    (∀ (l : List (String × JVal)) (rest : List Char), jdepthF l ≤ fuel →
      jdecF fuel l.length (jencF l ++ rest) = some (l, rest)) := by
  intro fuel
  induction fuel with
  | zero =>
    refine ⟨?_, ?_, ?_⟩
    · intro v rest hd
      exact absurd hd (by have := jdepthV_pos v; omega)
    · intro l rest hd
      cases l with
      | nil => rfl
      | cons v vs =>
        exact absurd hd (by
          have : jdepthL (v :: vs) = max (jdepthV v) (jdepthL vs) + 1 := rfl
          omega)
    · intro l rest hd
      cases l with
      | nil => rfl
      | cons f fs =>
        obtain ⟨k, v⟩ := f
        exact absurd hd (by
          have : jdepthF ((k, v) :: fs) = max (jdepthV v) (jdepthF fs) + 1 := rfl
          omega)
  | succ fuel ih =>
    obtain ⟨ihV, ihL, ihF⟩ := ih
    refine ⟨?_, ?_, ?_⟩
    · intro v rest hd
      cases v with
      | null => rfl
      | bool b => cases b <;> rfl
      | int n =>
        by_cases hn : 0 ≤ n
        · have he : jencV (.int n) ++ rest = 'i' :: 'p' :: (natUn n.toNat ++ rest) := by
            simp [jencV, encInt, hn]
          rw [he]
          have hstep : jdecV (fuel + 1) ('i' :: 'p' :: (natUn n.toNat ++ rest)) =
              (parseNatUn (natUn n.toNat ++ rest)).map fun p =>
                (JVal.int (p.1 : Int), p.2) := rfl
          rw [hstep, parseNatUn_natUn]
          simp only [Option.map]
          rw [Int.toNat_of_nonneg hn]
        · have he : jencV (.int n) ++ rest = 'i' :: 'm' :: (natUn (-n).toNat ++ rest) := by
            simp [jencV, encInt, hn]
          rw [he]
          have hstep : jdecV (fuel + 1) ('i' :: 'm' :: (natUn (-n).toNat ++ rest)) =
              (parseNatUn (natUn (-n).toNat ++ rest)).map fun p =>
                (JVal.int (-(p.1 : Int)), p.2) := rfl
          rw [hstep, parseNatUn_natUn]
          simp only [Option.map]
          rw [Int.toNat_of_nonneg (by omega), neg_neg]
      | str s =>
        have he : jencV (.str s) ++ rest = 's' :: (encStr s ++ rest) := by
          simp [jencV]
        rw [he]
        have hstep : jdecV (fuel + 1) ('s' :: (encStr s ++ rest)) =
            (parseStr (encStr s ++ rest)).map fun p => (JVal.str p.1, p.2) := rfl
        rw [hstep, parseStr_encStr]
        rfl
      | arr l =>
        have hd2 : jdepthL l ≤ fuel := by
          have : jdepthV (.arr l) = jdepthL l + 1 := rfl
          omega
        have he : jencV (.arr l) ++ rest = 'a' :: (natUn l.length ++ (jencL l ++ rest)) := by
          simp [jencV]
        rw [he]
        have hstep : jdecV (fuel + 1) ('a' :: (natUn l.length ++ (jencL l ++ rest))) =
            (parseNatUn (natUn l.length ++ (jencL l ++ rest))).bind fun p =>
              (jdecL fuel p.1 p.2).bind fun q => some (JVal.arr q.1, q.2) := rfl
        rw [hstep, parseNatUn_natUn]
        simp only [Option.bind]
        rw [ihL l rest hd2]
      | obj l =>
        have hd2 : jdepthF l ≤ fuel := by
          have : jdepthV (.obj l) = jdepthF l + 1 := rfl
          omega
        have he : jencV (.obj l) ++ rest = 'o' :: (natUn l.length ++ (jencF l ++ rest)) := by
          simp [jencV]
        rw [he]
        have hstep : jdecV (fuel + 1) ('o' :: (natUn l.length ++ (jencF l ++ rest))) =
            (parseNatUn (natUn l.length ++ (jencF l ++ rest))).bind fun p =>
              (jdecF fuel p.1 p.2).bind fun q => some (JVal.obj q.1, q.2) := rfl
        rw [hstep, parseNatUn_natUn]
        simp only [Option.bind]
        rw [ihF l rest hd2]
    · intro l rest hd
      cases l with
      | nil => rfl
      | cons v vs =>
        have hdv : jdepthV v ≤ fuel := by
          have : jdepthL (v :: vs) = max (jdepthV v) (jdepthL vs) + 1 := rfl
          omega
        have hdl : jdepthL vs ≤ fuel := by
          have : jdepthL (v :: vs) = max (jdepthV v) (jdepthL vs) + 1 := rfl
          omega
        show jdecL (fuel + 1) (vs.length + 1) ((jencV v ++ jencL vs) ++ rest) =
          some (v :: vs, rest)
        have hstep : jdecL (fuel + 1) (vs.length + 1) ((jencV v ++ jencL vs) ++ rest) =
            (jdecV fuel ((jencV v ++ jencL vs) ++ rest)).bind fun p =>
              (jdecL fuel vs.length p.2).bind fun q => some (p.1 :: q.1, q.2) := rfl
        rw [hstep, List.append_assoc, ihV v (jencL vs ++ rest) hdv]
        simp only [Option.bind]
        rw [ihL vs rest hdl]
    · intro l rest hd
      cases l with
      | nil => rfl
      | cons f fs =>
        obtain ⟨k, v⟩ := f
        have hdv : jdepthV v ≤ fuel := by
          have : jdepthF ((k, v) :: fs) = max (jdepthV v) (jdepthF fs) + 1 := rfl
          omega
        have hdf : jdepthF fs ≤ fuel := by
          have : jdepthF ((k, v) :: fs) = max (jdepthV v) (jdepthF fs) + 1 := rfl
          omega
        show jdecF (fuel + 1) (fs.length + 1) ((encStr k ++ jencV v ++ jencF fs) ++ rest) =
          some ((k, v) :: fs, rest)
        have hstep : jdecF (fuel + 1) (fs.length + 1)
            ((encStr k ++ jencV v ++ jencF fs) ++ rest) =
            (parseStr ((encStr k ++ jencV v ++ jencF fs) ++ rest)).bind fun pk =>
              (jdecV fuel pk.2).bind fun pv =>
                (jdecF fuel fs.length pv.2).bind fun q =>
                  some ((pk.1, pv.1) :: q.1, q.2) := rfl
        rw [hstep]
        rw [show (encStr k ++ jencV v ++ jencF fs) ++ rest =
          encStr k ++ (jencV v ++ (jencF fs ++ rest)) from by simp [List.append_assoc]]
        rw [parseStr_encStr]
        simp only [Option.bind]
        rw [ihV v (jencF fs ++ rest) hdv]
        simp only [Option.bind]
        rw [ihF fs rest hdf]

theorem depth_le_len : ∀ n : Nat,
    (∀ v : JVal, (jencV v).length ≤ n → jdepthV v ≤ (jencV v).length) ∧
    (∀ l : List JVal, (jencL l).length ≤ n → jdepthL l ≤ (jencL l).length + 1) ∧
    (∀ l : List (String × JVal), (jencF l).length ≤ n →
      jdepthF l ≤ (jencF l).length + 1) := by
  intro n
  induction n with
  | zero =>
    refine ⟨?_, ?_, ?_⟩
    · intro v hl
      have := jencV_length_pos v
      omega
    · intro l hl
      cases l with
      | nil => simp [jdepthL, jencL]
      | cons v vs =>
        have h1 := jencV_length_pos v
        have h2 : (jencL (v :: vs)).length = (jencV v).length + (jencL vs).length := by
          show (jencV v ++ jencL vs).length = _
          simp only [List.length_append]
        omega
    · intro l hl
      cases l with
      | nil => simp [jdepthF, jencF]
      | cons f fs =>
        obtain ⟨k, v⟩ := f
        have h1 := jencV_length_pos v
        have h2 : (jencF ((k, v) :: fs)).length =
            (encStr k).length + (jencV v).length + (jencF fs).length := by
          show (encStr k ++ jencV v ++ jencF fs).length = _
          simp only [List.length_append]
        omega
  | succ n ih =>
    obtain ⟨ihV, ihL, ihF⟩ := ih
    have hV : ∀ v : JVal, (jencV v).length ≤ n + 1 → jdepthV v ≤ (jencV v).length := by
      intro v hl
      cases v with
      | null => simp [jdepthV, jencV]
      | bool b => cases b <;> simp [jdepthV, jencV]
      | int m =>
        have := jencV_length_pos (.int m)
        have hd : jdepthV (.int m) = 1 := rfl
        omega
      | str s =>
        have := jencV_length_pos (.str s)
        have hd : jdepthV (.str s) = 1 := rfl
        omega
      | arr l =>
        have hlen : (jencV (.arr l)).length =
            1 + ((natUn l.length).length + (jencL l).length) := by
          show ('a' :: (natUn l.length ++ jencL l)).length = _
          simp only [List.length_cons, List.length_append]
          omega
        rw [natUn_length] at hlen
        rw [hlen] at hl ⊢
        have hrec := ihL l (by omega)
        have hd : jdepthV (.arr l) = jdepthL l + 1 := rfl
        omega
      | obj l =>
        have hlen : (jencV (.obj l)).length =
            1 + ((natUn l.length).length + (jencF l).length) := by
          show ('o' :: (natUn l.length ++ jencF l)).length = _
          simp only [List.length_cons, List.length_append]
          omega
        rw [natUn_length] at hlen
        rw [hlen] at hl ⊢
        have hrec := ihF l (by omega)
        have hd : jdepthV (.obj l) = jdepthF l + 1 := rfl
        omega
    refine ⟨hV, ?_, ?_⟩
    · intro l hl
      cases l with
      | nil => simp [jdepthL, jencL]
      | cons v vs =>
        have h2 : (jencL (v :: vs)).length = (jencV v).length + (jencL vs).length := by
          show (jencV v ++ jencL vs).length = _
          simp only [List.length_append]
        have h1 := jencV_length_pos v
        rw [h2] at hl ⊢
        have hv := hV v (by omega)
        have hvs := ihL vs (by omega)
        have hd : jdepthL (v :: vs) = max (jdepthV v) (jdepthL vs) + 1 := rfl
        omega
    · intro l hl
      cases l with
      | nil => simp [jdepthF, jencF]
      | cons f fs =>
        obtain ⟨k, v⟩ := f
        have h2 : (jencF ((k, v) :: fs)).length =
            (encStr k).length + (jencV v).length + (jencF fs).length := by
          show (encStr k ++ jencV v ++ jencF fs).length = _
          simp only [List.length_append]
        have h1 := jencV_length_pos v
        have h3 : 0 < (encStr k).length := by
          rw [encStr_length]
          omega
        rw [h2] at hl ⊢
        have hv := hV v (by omega)
        have hfs := ihF fs (by omega)
        have hd : jdepthF ((k, v) :: fs) = max (jdepthV v) (jdepthF fs) + 1 := rfl
        omega

theorem jload_jdump (v : JVal) : jload (jdump v) = v := by
  have hlen : jdepthV v ≤ (jencV v).length := (depth_le_len (jencV v).length).1 v le_rfl
  have hdec := (jdec_jenc ((jencV v).length)).1 v [] hlen
  rw [List.append_nil] at hdec
  unfold jload jdump
  simp only []
  rw [hdec]

theorem try_decompress_id {B : Type} (w : WireCodec B) (m : JVal)
    (hnotwrap : jStrEq (jGet m "type") "__compressed__" = false) :
    _try_decompress w m = m := by
  simp only [_try_decompress]
  by_cases hobj : jIsObj m = true
  · rw [if_neg (by rw [hobj]; exact Bool.false_ne_true)]
    rw [if_pos (by rw [hnotwrap]; rfl)]
  · rw [if_pos (by
      cases hj : jIsObj m with
      | true => exact absurd hj hobj
      | false => rfl)]

theorem try_decompress_wrapper {B : Type} (w : WireCodec B) (ot : JVal)
    (olen clen : Int) (payload : String) :
    _try_decompress w (.obj
      [("type", .str "__compressed__"),
       ("encoding", .str "gzip+base64"),
       ("originalType", ot),
       ("originalLength", .int olen),
       ("compressedLength", .int clen),
       ("payload", .str payload)]) =
      w.loads (w.utf8dec (w.gunz (w.b64d payload))) := rfl

/-- C5: the compression envelope round-trips to the identity on every JSON
object whose `type` is not the reserved marker `__compressed__`, and objects of
type `paintBatch` or `repairOrder` are never wrapped (they are emitted as a
plain compact dump regardless of size).  The abstract wire libraries are
assumed to satisfy their round-trip contracts (`loads ∘ dumps = id`,
`decompress ∘ compress = id`, `b64decode ∘ b64encode = id`,
`utf8 decode ∘ encode = id`).  The original claim ranged over every JSON
object: an object that itself carries `type = '__compressed__'` (with a
gzip+base64 encoding field and a string payload) is emitted verbatim by
`_compress_if_needed` but is then decoded by `_try_decompress` as if it were a
genuine envelope, so the round-trip fails on it (see `C5_counterexample`);
the claim is amended with the non-reserved-type proviso. -/
theorem C5_roundtrip {B : Type} (w : WireCodec B)
    (hloadC : ∀ v, w.loads (w.dumpsC v) = v)
    (hutf8 : ∀ s, w.utf8dec (w.utf8enc s) = s)
    (hgz : ∀ b, w.gunz (w.gz b) = b)
    (hb64 : ∀ s, w.b64d (w.b64e s) = s)
    (m : JVal)
    (hobj : jIsObj m = true)
    (hnotwrap : jStrEq (jGet m "type") "__compressed__" = false) :
    wireDecode w (_compress_if_needed w m) = m ∧
    ((jStrEq (jGet m "type") "paintBatch" = true ∨
      jStrEq (jGet m "type") "repairOrder" = true) →
      _compress_if_needed w m = w.dumpsC m) := by
  have hcond1 : ¬((!jIsObj m || jStrEq (jGet m "type") "__compressed__") = true) := by
    rw [hobj, hnotwrap]
    exact Bool.false_ne_true
  have henc : _compress_if_needed w m =
      (if jStrEq (jGet m "type") "paintBatch" || jStrEq (jGet m "type") "repairOrder" then
        w.dumpsC m
      else
        if w.blen (w.utf8enc (w.dumpsC m)) < COMPRESSION_THRESHOLD then
          w.utf8dec (w.utf8enc (w.dumpsC m))
        else
          w.dumpsC (.obj
            [("type", .str "__compressed__"),
             ("encoding", .str "gzip+base64"),
             ("originalType", (jGet m "type").getD .null),
             ("originalLength", .int (w.blen (w.utf8enc (w.dumpsC m)))),
             ("compressedLength", .int (w.b64e (w.gz (w.utf8enc (w.dumpsC m)))).length),
             ("payload", .str (w.b64e (w.gz (w.utf8enc (w.dumpsC m)))))])) := by
    simp only [_compress_if_needed]
    rw [if_neg hcond1]
  constructor
  · rw [henc]
    by_cases hnc : (jStrEq (jGet m "type") "paintBatch" ||
        jStrEq (jGet m "type") "repairOrder") = true
    · rw [if_pos hnc]
      unfold wireDecode
      rw [hloadC]
      exact try_decompress_id w m hnotwrap
    · rw [if_neg hnc]
      by_cases hsize : w.blen (w.utf8enc (w.dumpsC m)) < COMPRESSION_THRESHOLD
      · rw [if_pos hsize]
        unfold wireDecode
        rw [hutf8, hloadC]
        exact try_decompress_id w m hnotwrap
      · rw [if_neg hsize]
        unfold wireDecode
        rw [hloadC]
        rw [try_decompress_wrapper]
        rw [hb64, hgz, hutf8, hloadC]
  · intro hty
    rw [henc]
    rw [if_pos (by
      rcases hty with h | h
      · rw [h]
        rfl
      · rw [h]
        simp)]

/-- Witness: the C5 theorem applied to the concrete verified codec
(`plainCodec`, whose library round-trips hold by `jload_jdump` and by `rfl`)
and the object `{type: "ping"}`. -/
theorem C5_roundtrip_witness :
    wireDecode plainCodec
        (_compress_if_needed plainCodec (JVal.obj [("type", JVal.str "ping")])) =
      JVal.obj [("type", JVal.str "ping")] ∧
    ((jStrEq (jGet (JVal.obj [("type", JVal.str "ping")]) "type") "paintBatch" = true ∨
      jStrEq (jGet (JVal.obj [("type", JVal.str "ping")]) "type") "repairOrder" = true) →
      _compress_if_needed plainCodec (JVal.obj [("type", JVal.str "ping")]) =
        plainCodec.dumpsC (JVal.obj [("type", JVal.str "ping")])) :=
  C5_roundtrip plainCodec jload_jdump (fun _ => rfl) (fun _ => rfl) (fun _ => rfl)
    (JVal.obj [("type", JVal.str "ping")]) rfl (by decide)

/-- Counterexample to the unamended C5: the object
`{type: "__compressed__", encoding: "gzip+base64", payload: jdump null}` is a
JSON object, yet encoding it with `_compress_if_needed` and decoding with
`json.loads` followed by `_try_decompress` yields `null`, not the object
itself: the sender emits it verbatim (its type equals the reserved marker) and
the receiver then treats it as a genuine envelope and unpacks its payload. -/
theorem C5_counterexample :
    wireDecode plainCodec (_compress_if_needed plainCodec cexMessage) = JVal.null ∧
    jIsObj cexMessage = true ∧ cexMessage ≠ JVal.null := by
  refine ⟨?_, rfl, fun h => JVal.noConfusion h⟩
  have henc : _compress_if_needed plainCodec cexMessage = jdump cexMessage := by
    simp only [_compress_if_needed]
    rw [if_pos (by rfl)]
    rfl
  rw [henc]
  unfold wireDecode
  rw [show plainCodec.loads = jload from rfl]
  rw [jload_jdump]
  have hstep : _try_decompress plainCodec cexMessage = jload (jdump JVal.null) := rfl
  rw [hstep, jload_jdump]

theorem take_set_of_le {α : Type} (l : List α) (i : Nat) (v : α) (n : Nat) (h : n ≤ i) :
    (l.set i v).take n = l.take n := by
  induction l generalizing i n with
  | nil => simp
  | cons a rest ih =>
    cases i with
    | zero =>
      have hn : n = 0 := Nat.le_zero.mp h
      subst hn
      simp
    | succ i =>
      cases n with
      | zero => simp
      | succ n =>
        rw [List.set_cons_succ, List.take_succ_cons, List.take_succ_cons,
          ih i n (by omega)]

theorem pop_fold_take (n : Nat) :
    ∀ (out : List Ref) (st : Store), (∀ r ∈ out, n ≤ r) →
      (out.foldl (fun st r => st.set r (alErase (readRef st r) "_x")) st).take n =
        st.take n := by
  intro out
  induction out with
  | nil =>
    intro st _
    rfl
  | cons r rest ih =>
    intro st h
    rw [List.foldl_cons, ih _ (fun r2 h2 => h r2 (List.mem_cons_of_mem _ h2))]
    exact take_set_of_le st r _ n (h r (List.mem_cons_self _ _))

theorem alAppendList_get_mem {K : Type} [DecidableEq K]
    (rows : List (K × List Ref)) (k : K) (r0 : Ref) (y : K) (r : Ref)
    (h : r ∈ (alGet (alAppendList rows k r0) y).getD []) :
    r ∈ (alGet rows y).getD [] ∨ r = r0 := by
  induction rows with
  | nil =>
    simp only [alAppendList, alGet] at h
    by_cases hk : k = y
    · rw [if_pos hk] at h
      simp only [Option.getD] at h
      rcases List.mem_singleton.mp h with h1
      exact Or.inr h1
    · rw [if_neg hk] at h
      simp at h
  | cons p rest ih =>
    simp only [alAppendList] at h
    by_cases hp : p.1 = k
    · rw [if_pos hp] at h
      simp only [alGet] at h ⊢
      by_cases hy : p.1 = y
      · rw [if_pos hy] at h ⊢
        simp only [Option.getD] at h ⊢
        rcases List.mem_append.mp h with h1 | h1
        · exact Or.inl h1
        · exact Or.inr (List.mem_singleton.mp h1)
      · rw [if_neg hy] at h ⊢
        exact Or.inl h
    · rw [if_neg hp] at h
      simp only [alGet] at h ⊢
      by_cases hy : p.1 = y
      · rw [if_pos hy] at h ⊢
        exact Or.inl h
      · rw [if_neg hy] at h ⊢
        exact ih h

theorem zig_alloc_fold (store : Store) :
    ∀ (pool : List Ref) (rows : List (Int × List Ref)) (st : Store),
      store.length ≤ st.length →
      (∀ y r, r ∈ (alGet rows y).getD [] → store.length ≤ r) →
      (∃ L, (pool.foldl
        (fun (acc : List (Int × List Ref) × Store) r =>
          (alAppendList acc.1 (dGetInt (readRef store r) "y") acc.2.length,
            acc.2 ++ [alSet (readRef store r) "_x"
              (.int (dGetInt (readRef store r) "x"))]))
        (rows, st)).2 = st ++ L) ∧
      (∀ y r, r ∈ (alGet (pool.foldl
        (fun (acc : List (Int × List Ref) × Store) r =>
          (alAppendList acc.1 (dGetInt (readRef store r) "y") acc.2.length,
            acc.2 ++ [alSet (readRef store r) "_x"
              (.int (dGetInt (readRef store r) "x"))]))
        (rows, st)).1 y).getD [] → store.length ≤ r) := by
  intro pool
  induction pool with
  | nil =>
    intro rows st _ hrows
    exact ⟨⟨[], by simp⟩, hrows⟩
  | cons q pool ih =>
    intro rows st hlen hrows
    simp only [List.foldl_cons]
    have hlen2 : store.length ≤ (st ++ [alSet (readRef store q) "_x"
        (.int (dGetInt (readRef store q) "x"))]).length := by
      rw [List.length_append]
      omega
    have hrows2 : ∀ y r, r ∈ (alGet (alAppendList rows (dGetInt (readRef store q) "y")
        st.length) y).getD [] → store.length ≤ r := by
      intro y r hmem
      rcases alAppendList_get_mem rows (dGetInt (readRef store q) "y") st.length y r hmem
        with h | h
      · exact hrows y r h
      · rw [h]
        exact hlen
    obtain ⟨⟨L, hL⟩, hmem⟩ := ih (alAppendList rows (dGetInt (readRef store q) "y")
        st.length) (st ++ [alSet (readRef store q) "_x"
        (.int (dGetInt (readRef store q) "x"))]) hlen2 hrows2
    refine ⟨⟨alSet (readRef store q) "_x" (.int (dGetInt (readRef store q) "x")) :: L, ?_⟩,
      hmem⟩
    rw [hL, List.append_assoc]
    rfl

theorem pat_zigzag_take (store : Store) (pool : List Ref) :
    (pat_zigzag store pool).2.take store.length = store.take store.length := by
  obtain ⟨⟨af, hf⟩, hmem⟩ := zig_alloc_fold store pool [] store le_rfl
    (by
      intro y r hmem
      simp [alGet] at hmem)
  obtain ⟨a, ha⟩ : ∃ a, pool.foldl
      (fun (acc : List (Int × List Ref) × Store) r =>
        (alAppendList acc.1 (dGetInt (readRef store r) "y") acc.2.length,
          acc.2 ++ [alSet (readRef store r) "_x"
            (.int (dGetInt (readRef store r) "x"))]))
      ([], store) = a := ⟨_, rfl⟩
  rw [ha] at hf hmem
  simp only [pat_zigzag]
  rw [ha]
  refine Eq.trans (pop_fold_take store.length _ a.2 ?_) ?_
  · intro r hr
    rcases List.mem_flatMap.mp hr with ⟨i, _, hri⟩
    by_cases hi : i % 2 = 1
    · rw [if_pos hi] at hri
      exact hmem _ r (List.mem_mergeSort.mp hri)
    · rw [if_neg hi] at hri
      exact hmem _ r (List.mem_mergeSort.mp hri)
  · rw [hf, List.take_append_of_le_length le_rfl]

/-- C7: `select_pixels_by_pattern` never mutates its inputs.  In the store
model every change dict the caller passes in lives at an index below the
original store length, so the claim is that the prefix of the store below that
length is returned unchanged, for every pattern name (including the
zigzag/snake paths, whose `{**ch, '_x': ...}` copies and `pop('_x')` writes
touch only freshly allocated cells), every change list, every count, every
comparator for the float-keyed orders and every random stream. -/
theorem C7_no_input_mutation (fcmp : String → Store → List Ref → Ref → Ref → Bool)
    (rng : Nat → Nat) (pattern : String) (changes : List Ref) (count : Int)
    (store : Store) :
    (select_pixels_by_pattern fcmp rng pattern changes count store).2.take store.length =
      store.take store.length := by
  have hdisp : ∀ (p : String) (pool : List Ref),
      (patternDispatch fcmp rng p store pool).2.take store.length =
        store.take store.length := by
    intro p pool
    delta patternDispatch
    by_cases h : p = "lineUp"
    · rw [if_pos h]
    · rw [if_neg h]
      by_cases h : p = "lineDown"
      · rw [if_pos h]
      · rw [if_neg h]
        by_cases h : p = "lineLeft"
        · rw [if_pos h]
        · rw [if_neg h]
          by_cases h : p = "lineRight"
          · rw [if_pos h]
          · rw [if_neg h]
            by_cases h : p = "center"
            · rw [if_pos h]
            · rw [if_neg h]
              by_cases h : p = "borders"
              · rw [if_pos h]
              · rw [if_neg h]
                by_cases h : p = "spiral"
                · rw [if_pos h]
                · rw [if_neg h]
                  by_cases h : p = "spiralClockwise"
                  · rw [if_pos h]
                  · rw [if_neg h]
                    by_cases h : p = "spiralCounterClockwise"
                    · rw [if_pos h]
                    · rw [if_neg h]
                      by_cases h : p = "zigzag"
                      · rw [if_pos h]
                        exact pat_zigzag_take store pool
                      · rw [if_neg h]
                        by_cases h : p = "diagonal"
                        · rw [if_pos h]
                        · rw [if_neg h]
                          by_cases h : p = "cluster"
                          · rw [if_pos h]
                          · rw [if_neg h]
                            by_cases h : p = "wave"
                            · rw [if_pos h]
                            · rw [if_neg h]
                              by_cases h : p = "corners"
                              · rw [if_pos h]
                              · rw [if_neg h]
                                by_cases h : p = "sweep"
                                · rw [if_pos h]
                                · rw [if_neg h]
                                  by_cases h : p = "priority"
                                  · rw [if_pos h]
                                  · rw [if_neg h]
                                    by_cases h : p = "proximity"
                                    · rw [if_pos h]
                                    · rw [if_neg h]
                                      by_cases h : p = "quadrant"
                                      · rw [if_pos h]
                                      · rw [if_neg h]
                                        by_cases h : p = "scattered"
                                        · rw [if_pos h]
                                        · rw [if_neg h]
                                          by_cases h : p = "snake"
                                          · rw [if_pos h]
                                            exact pat_zigzag_take store pool
                                          · rw [if_neg h]
                                            by_cases h : p = "diagonalSweep"
                                            · rw [if_pos h]
                                            · rw [if_neg h]
                                              by_cases h : p = "biasedRandom"
                                              · rw [if_pos h]
                                              · rw [if_neg h]
                                                by_cases h : p = "anchorPoints"
                                                · rw [if_pos h]
                                                · rw [if_neg h]
  simp only [select_pixels_by_pattern]
  split
  · rfl
  · exact hdisp _ _
